import Mathlib

/-!
# Wood-Cutter packing engine: formal model

A shallow embedding of the rectangle-packing core of the Wood-Cutter
repository (src/script.js and src/unnamed/part_001), together with proofs
about it.  JavaScript numbers are modelled as exact rationals (ℚ); the
concrete constants of the program (sheet 48×96, kerf 0, tolerance 1/32,
threshold 0.7) are small dyadic/decimal rationals, so every comparison the
program performs on them is decided identically in ℚ and in IEEE doubles.
Quantities are natural numbers (the spec's data model: non-negative
integer counts).

The MaxRects bin (class MaxRectsBin) is identical, line for line, in
src/script.js and src/unnamed/part_001; it is embedded once below.
-/

namespace WoodCutter

/-- Axis-aligned rectangle `{x, y, width, height}`, the shape of the free
rectangles, consumed regions and placement nodes of the JS code. -/
structure Rect where
  x : ℚ
  y : ℚ
  width : ℚ
  height : ℚ
deriving Repr, DecidableEq

instance : Inhabited Rect := ⟨⟨0, 0, 0, 0⟩⟩

/-- A normalized cut-list record, the shape produced by `parseInput`:
display tokens, numeric dimensions, quantity and edge-banding count. -/
structure Piece where
  originalWidth : String
  originalHeight : String
  width : ℚ
  height : ℚ
  qty : ℕ
  edges : ℕ
deriving Repr, DecidableEq

instance : Inhabited Piece := ⟨⟨"", "", 0, 0, 0, 0⟩⟩

/-- The global `config` object's fields (union of the fields used by
src/script.js and src/unnamed/part_001). -/
structure Config where
  sheetWidth : ℚ
  sheetHeight : ℚ
  efficientDims : List ℚ
  kerf : ℚ
  stripModeAuto : Bool
  stripWidthTolerance : ℚ
deriving Repr

/-- The source's configuration values: 48×96 sheet, efficient dims
`[47.875, 48, 96]`, kerf `0`, strip mode on, tolerance `1/32`. -/
def config : Config :=
  { sheetWidth := 48
    sheetHeight := 96
    efficientDims := [383/8, 48, 96]
    kerf := 0
    stripModeAuto := true
    stripWidthTolerance := 1/32 }

/-- `isEfficient`: some configured dimension is within 0.01 of the piece's
width or height. -/
def isEfficient (cfg : Config) (p : Piece) : Bool :=
  cfg.efficientDims.any fun dim =>
    decide (|p.width - dim| < 1/100) || decide (|p.height - dim| < 1/100)

/-! ## MaxRects core (class MaxRectsBin, identical in both source files) -/

/-- The state of a `MaxRectsBin` object. -/
structure MaxRectsBin where
  binWidth : ℚ
  binHeight : ℚ
  kerf : ℚ
  freeRects : List Rect
  usedRects : List Rect
deriving Repr, DecidableEq

namespace MaxRectsBin

/-- The constructor: one free rectangle covering the whole bin. -/
def init (width height kerf : ℚ) : MaxRectsBin :=
  { binWidth := width
    binHeight := height
    kerf := kerf
    freeRects := [⟨0, 0, width, height⟩]
    usedRects := [] }

/-- `_fits(w, h, rect)`. -/
def fits (w h : ℚ) (rect : Rect) : Bool :=
  decide (w ≤ rect.width) && decide (h ≤ rect.height)

/-- `_overlaps(a, b)`. -/
def overlapsB (a b : Rect) : Bool :=
  !(decide (a.x + a.width ≤ b.x) || decide (a.x ≥ b.x + b.width) ||
    decide (a.y + a.height ≤ b.y) || decide (a.y ≥ b.y + b.height))

/-- `_containedIn(a, b)`: `a` lies inside `b`. -/
def containedIn (a b : Rect) : Bool :=
  decide (a.x ≥ b.x) && decide (a.y ≥ b.y) &&
  decide (a.x + a.width ≤ b.x + b.width) &&
  decide (a.y + a.height ≤ b.y + b.height)

/-- `_splitFreeNode(free, used, out)`: the (up to four) replacement
rectangles pushed for an intersected free rectangle, in source order
(above, below, left, right). -/
def splitFreeNode (free used : Rect) : List Rect :=
  (if decide (used.y > free.y) && decide (used.y < free.y + free.height) then
    [⟨free.x, free.y, free.width, used.y - free.y⟩] else []) ++
  (if decide (used.y + used.height < free.y + free.height) then
    [⟨free.x, used.y + used.height, free.width,
      (free.y + free.height) - (used.y + used.height)⟩] else []) ++
  (if decide (used.x > free.x) && decide (used.x < free.x + free.width) then
    [⟨free.x, max free.y used.y, used.x - free.x,
      min (free.y + free.height) (used.y + used.height) - max free.y used.y⟩] else []) ++
  (if decide (used.x + used.width < free.x + free.width) then
    [⟨used.x + used.width, max free.y used.y,
      (free.x + free.width) - (used.x + used.width),
      min (free.y + free.height) (used.y + used.height) - max free.y used.y⟩] else [])

/-- One inner pass of `_pruneFreeList` for the outer element `a`: scan the
rectangles after `a`, deleting those contained in `a`; if `a` is found to
be contained in some later rectangle the scan stops and reports that `a`
itself must be removed (the `splice(i,1); i--; break` branch).  Returns
`(aRemoved, survivors)`. -/
def pruneScan (a : Rect) : List Rect → Bool × List Rect
  | [] => (false, [])
  | b :: bs =>
    if containedIn a b then (true, b :: bs)
    else if containedIn b a then pruneScan a bs
    else
      let r := pruneScan a bs
      (r.1, b :: r.2)

/-- Fuelled body of `_pruneFreeList`; the loop shortens the list at
every re-entry, so a fuel of the initial length is sufficient and the
fuel-out branch is never reached from `pruneFreeList`.  (Structural
recursion on a sufficient fuel is used instead of well-founded
recursion throughout this file so that the kernel can evaluate the
model on concrete inputs.) -/
def pruneFreeListF : ℕ → List Rect → List Rect
  | 0, l => l
  | _, [] => []
  | fuel + 1, a :: rest =>
    match pruneScan a rest with
    | (true, rest2) => pruneFreeListF fuel rest2
    | (false, rest2) => a :: pruneFreeListF fuel rest2

/-- `_pruneFreeList()`: repeatedly run the inner scan; when the outer
element survives it is kept and the outer index advances. -/
def pruneFreeList (l : List Rect) : List Rect := pruneFreeListF l.length l

/-- `_place(node)`: consume the kerf-inflated region from the free list,
split intersected free rectangles, prune, and record the un-inflated
node in `usedRects`. -/
def place (b : MaxRectsBin) (node : Rect) : MaxRectsBin :=
  let consume : Rect := ⟨node.x, node.y, node.width + b.kerf, node.height + b.kerf⟩
  let newFree := b.freeRects.flatMap fun rect =>
    if overlapsB consume rect then splitFreeNode rect consume else [rect]
  { b with freeRects := pruneFreeList newFree
           usedRects := b.usedRects ++ [node] }

/-- The result object `{ x, y, width, height, rotated }` returned by a
successful `insert`. -/
structure Placement where
  x : ℚ
  y : ℚ
  width : ℚ
  height : ℚ
  rotated : Bool
deriving Repr, DecidableEq

/-- Kerf-inflated placement width for an orientation (rotated swaps the
piece's dimensions). -/
def pwOf (w h kerf : ℚ) (rot : Bool) : ℚ := (if rot then h else w) + kerf

/-- Kerf-inflated placement height for an orientation. -/
def phOf (w h kerf : ℚ) (rot : Bool) : ℚ := (if rot then w else h) + kerf

/-- `leftoverShort` of a candidate (rect, orientation) pair. -/
def shortOf (w h kerf : ℚ) (rot : Bool) (rect : Rect) : ℚ :=
  min |rect.width - pwOf w h kerf rot| |rect.height - phOf w h kerf rot|

/-- `leftoverLong` of a candidate (rect, orientation) pair. -/
def longOf (w h kerf : ℚ) (rot : Bool) (rect : Rect) : ℚ :=
  max |rect.width - pwOf w h kerf rot| |rect.height - phOf w h kerf rot|

/-- The fitting orientations offered by one free rectangle, in the
source's test order: unrotated first, then (if allowed) rotated. -/
def candOf (w h kerf : ℚ) (allowRotate : Bool) (rect : Rect) : List (Rect × Bool) :=
  (if fits (pwOf w h kerf false) (phOf w h kerf false) rect then [(rect, false)] else []) ++
  (if allowRotate && fits (pwOf w h kerf true) (phOf w h kerf true) rect then [(rect, true)] else [])

/-- The fitting (rectangle, orientation) pairs examined by `insert`, in
the exact iteration order of the source. -/
def candidates (free : List Rect) (w h kerf : ℚ) (allowRotate : Bool) :
    List (Rect × Bool) :=
  free.flatMap (candOf w h kerf allowRotate)

/-- The `shortSide < bestShortSide || (shortSide === bestShortSide &&
longSide < bestLongSide)` test; the initial `Infinity` values are
modelled by `none`, which every candidate beats. -/
def betterThan (s l : ℚ) : Option ((Rect × Bool) × ℚ × ℚ) → Bool
  | none => true
  | some (_, bs, bl) => decide (s < bs) || (decide (s = bs) && decide (l < bl))

/-- One conditional update of the best-candidate variables: replace the
current best by `(c, s, l)` exactly when the orientation fits (`cond`)
and `(s, l)` beats the current best. -/
def pickBetter (c : Rect × Bool) (s l : ℚ) (cond : Bool)
    (st : Option ((Rect × Bool) × ℚ × ℚ)) : Option ((Rect × Bool) × ℚ × ℚ) :=
  if cond && betterThan s l st then some (c, s, l) else st

/-- The body of the candidate-selection loop of `insert` for one free
rectangle: try the unrotated orientation, then the rotated one. -/
def insertStep (w h kerf : ℚ) (allowRotate : Bool)
    (st : Option ((Rect × Bool) × ℚ × ℚ)) (rect : Rect) :
    Option ((Rect × Bool) × ℚ × ℚ) :=
  pickBetter (rect, true) (shortOf w h kerf true rect) (longOf w h kerf true rect)
    (allowRotate && fits (pwOf w h kerf true) (phOf w h kerf true) rect)
    (pickBetter (rect, false) (shortOf w h kerf false rect) (longOf w h kerf false rect)
      (fits (pwOf w h kerf false) (phOf w h kerf false) rect) st)

/-- The `(leftoverShort, leftoverLong)` score of a candidate pair. -/
def score (w h kerf : ℚ) (c : Rect × Bool) : ℚ × ℚ :=
  (shortOf w h kerf c.2 c.1, longOf w h kerf c.2 c.1)

/-- Lexicographic comparison of scores: smaller `leftoverShort`, ties
broken by `leftoverLong`. -/
def scoreLe (a b : ℚ × ℚ) : Prop := a.1 < b.1 ∨ (a.1 = b.1 ∧ a.2 ≤ b.2)

/-- The candidate-selection loop of `insert`: fold over the free list,
keeping the current best (rect, orientation) together with its
`bestShortSide` and `bestLongSide`. -/
def insertFold (w h kerf : ℚ) (allowRotate : Bool) (free : List Rect) :
    Option ((Rect × Bool) × ℚ × ℚ) :=
  free.foldl (insertStep w h kerf allowRotate) none

/-- The un-inflated node recorded for a chosen candidate: placed at the
free rectangle's corner, dimensions swapped when rotated. -/
def nodeOf (w h : ℚ) (c : Rect × Bool) : Rect :=
  if c.2 then ⟨c.1.x, c.1.y, h, w⟩ else ⟨c.1.x, c.1.y, w, h⟩

/-- `insert(width, height, allowRotate)`: Best-Short-Side-Fit selection,
then `_place`; returns `none` (and leaves the bin untouched) when no
candidate fits. -/
def insert (b : MaxRectsBin) (width height : ℚ) (allowRotate : Bool) :
    Option Placement × MaxRectsBin :=
  match insertFold width height b.kerf allowRotate b.freeRects with
  | none => (none, b)
  | some (c, _, _) =>
    let node := nodeOf width height c
    (some ⟨node.x, node.y, node.width, node.height, c.2⟩, place b node)

end MaxRectsBin

/-! ## Packing orchestrator (function packSheetsGuillotine)

src/script.js and the general pass of src/unnamed/part_001 contain the
same orchestration loop; it is embedded once (`packLoop`), parameterized
by the initial sheet/visual accumulators so that part_001 can seed it
with the strip-pass output. -/

/-- A `placed` entry of the orchestrator: the recorded un-inflated
footprint plus the piece reference and the recomputed rotation flag
(label and colorKey strings are display-only derivatives of these
fields and are not modelled). -/
structure PlacedEntry where
  x : ℚ
  y : ℚ
  width : ℚ
  height : ℚ
  piece : Piece
  rotated : Bool
deriving Repr, DecidableEq

/-- A visual box `{x, y, width, height}` handed to the renderer. -/
structure Visual where
  x : ℚ
  y : ℚ
  width : ℚ
  height : ℚ
deriving Repr, DecidableEq

/-- An aggregated per-sheet piece record `{piece, rotated, count}`. -/
structure SheetEntry where
  piece : Piece
  rotated : Bool
  count : ℕ
deriving Repr, DecidableEq

/-- A finished sheet `{pieces, cuts, edges}`. -/
structure Sheet where
  pieces : List SheetEntry
  cuts : ℕ
  edges : ℕ
deriving Repr, DecidableEq

/-- The `{sheets, warnings, visuals}` result object. -/
structure PackResult where
  sheets : List Sheet
  warnings : List String
  visuals : List (List Visual)
deriving Repr

def unplaceableWarning : String :=
  "⚠️ Some pieces could not be placed. Check for tight tolerances or odd sizes."

def abortWarning : String := "⚠️ Aborting: too many sheets generated."

/-- The conservative-limiter key of a piece in display orientation. -/
def key1 (p : Piece) : String := p.originalWidth ++ "×" ++ p.originalHeight

/-- The conservative-limiter key of a piece in swapped orientation. -/
def key2 (p : Piece) : String := p.originalHeight ++ "×" ++ p.originalWidth

/-- Quantity explosion: `for (let i = 0; i < p.qty; i++) items.push({...p})`. -/
def explode (pieces : List Piece) : List Piece :=
  pieces.flatMap fun p => List.replicate p.qty p

/-- `a` strictly precedes `b` under the sort comparator
`Math.max(b.width,b.height) - Math.max(a.width,a.height) || (b.w*b.h - a.w*a.h)`
(descending max dimension, then descending area). -/
def sortKeyGt (a b : Piece) : Bool :=
  decide (max b.width b.height < max a.width a.height) ||
  (decide (max a.width a.height = max b.width b.height) &&
   decide (b.width * b.height < a.width * a.height))

/-- Stable insertion of `x` behind every already-sorted element not
strictly after it. -/
def insertSorted (x : Piece) : List Piece → List Piece
  | [] => [x]
  | y :: ys => if sortKeyGt x y then x :: y :: ys else y :: insertSorted x ys

/-- The items sort.  JS `Array.prototype.sort` is required to be a stable
sort by the comparator; it is modelled by a stable insertion sort for
the same total preorder. -/
def sortPieces (l : List Piece) : List Piece :=
  l.foldl (fun acc x => insertSorted x acc) []

/-- `[items[j], items[idx]] = [items[idx], items[j]]`. -/
def swapConsume (items : List Piece) (j idx : ℕ) : List Piece :=
  let a := items.getD idx default
  let b := items.getD j default
  (items.set j a).set idx b

/-- Membership in the `distinctDims` set. -/
def hasDim (dims : List String) (k : String) : Bool := dims.contains k

/-- `distinctDims.add(k)` (JS `Set`: insertion-ordered, duplicates ignored). -/
def addDim (dims : List String) (k : String) : List String :=
  if dims.contains k then dims else dims ++ [k]

/-- The loop state of one sheet-filling pass: the (swap-permuted) item
array, the consumed-prefix index, the bin, the `placed` list and the
`distinctDims` set. -/
structure FillSt where
  items : List Piece
  idx : ℕ
  bin : MaxRectsBin
  placed : List PlacedEntry
  distinctDims : List String
deriving Repr

/-- The inner `for (let j = idx; j < items.length; j++)` loop of the
orchestrator: conservative-mode skip, `bin.insert`, recording of the
placed entry, swap-consume of the item.  `fuel` counts the remaining
loop iterations (`items.length - j` at entry; the item count never
changes, so the fuel-out branch is never reached from `packLoop`). -/
def fillLoop (cons : Bool) : ℕ → ℕ → FillSt → FillSt
  | 0, _, st => st
  | fuel + 1, j, st =>
    if j < st.items.length then
      if cons && decide (st.distinctDims.length ≥ 6) &&
          !hasDim st.distinctDims (key1 (st.items.getD j default)) &&
          !hasDim st.distinctDims (key2 (st.items.getD j default)) then
        fillLoop cons fuel (j+1) st
      else
        match MaxRectsBin.insert st.bin (st.items.getD j default).width
            (st.items.getD j default).height true with
        | (some node, bin2) =>
          fillLoop cons fuel (j+1)
            { items := swapConsume st.items j st.idx
              idx := st.idx + 1
              bin := bin2
              placed := st.placed ++ [⟨node.x, node.y, node.width, node.height,
                st.items.getD j default,
                !(decide (|node.width - (st.items.getD j default).width| < 1/10000) &&
                  decide (|node.height - (st.items.getD j default).height| < 1/10000))⟩]
              distinctDims := addDim st.distinctDims (key1 (st.items.getD j default)) }
        | (none, bin2) =>
          fillLoop cons fuel (j+1) { st with bin := bin2 }
    else st

/-- The conservative-limiter guard of the fill loop at position `j`. -/
def consGuard (cons : Bool) (st : FillSt) (j : ℕ) : Bool :=
  cons && decide (st.distinctDims.length ≥ 6) &&
  !hasDim st.distinctDims (key1 (st.items.getD j default)) &&
  !hasDim st.distinctDims (key2 (st.items.getD j default))

/-- Aggregation key of the per-sheet `pieceMap`. -/
def aggKey (p : Piece) (rot : Bool) : String :=
  p.originalWidth ++ "×" ++ p.originalHeight ++ "×" ++ (if rot then "R" else "N")

/-- `pieceMap.set(key, rec)` with `rec.count += 1`: update in place when
the key exists (JS `Map` keeps the original position), append otherwise. -/
def bumpEntry (k : String) (p : Piece) (rot : Bool) :
    List (String × SheetEntry) → List (String × SheetEntry)
  | [] => [(k, ⟨p, rot, 1⟩)]
  | (k2, e) :: rest =>
    if k2 = k then (k2, { e with count := e.count + 1 }) :: rest
    else (k2, e) :: bumpEntry k p rot rest

/-- `Array.from(pieceMap.values())`. -/
def aggregatePieces (placed : List PlacedEntry) : List SheetEntry :=
  (placed.foldl (fun m pl => bumpEntry (aggKey pl.piece pl.rotated) pl.piece pl.rotated m) []).map
    Prod.snd

/-- Per-sheet metrics: cuts (1 per efficient piece, 2 otherwise) and
edge-banding totals, folded over the aggregated records. -/
def mkSheet (cfg : Config) (placed : List PlacedEntry) : Sheet :=
  let sheetPieces := aggregatePieces placed
  { pieces := sheetPieces
    cuts := sheetPieces.foldl
      (fun acc r => acc + (if isEfficient cfg r.piece then r.count else r.count * 2)) 0
    edges := sheetPieces.foldl (fun acc r => acc + r.piece.edges * r.count) 0 }

def visualOf (pl : PlacedEntry) : Visual := ⟨pl.x, pl.y, pl.width, pl.height⟩

/-- The outer `while (idx < items.length)` loop: open a fresh bin, fill
the sheet, stop with the unplaceable warning when nothing was placed,
push the sheet, stop with the abort warning when more than 200 sheets
exist, otherwise continue with the consumed prefix advanced.  Each
continuing iteration consumes at least one item, so `items.length - idx`
at entry is a sufficient fuel and the fuel-out branch is unreachable
from the top-level wrappers. -/
def packLoop (cfg : Config) (cons : Bool) :
    ℕ → List Piece → ℕ → List Sheet → List String → List (List Visual) → PackResult
  | 0, _, _, sheets, warnings, visuals =>
    { sheets := sheets, warnings := warnings, visuals := visuals }
  | fuel + 1, items, idx, sheets, warnings, visuals =>
    if idx < items.length then
      let st := fillLoop cons (items.length - idx) idx
        ⟨items, idx, MaxRectsBin.init cfg.sheetWidth cfg.sheetHeight cfg.kerf, [], []⟩
      if st.placed.length = 0 then
        { sheets := sheets, warnings := warnings ++ [unplaceableWarning], visuals := visuals }
      else
        let sheets2 := sheets ++ [mkSheet cfg st.placed]
        let visuals2 := visuals ++ [st.placed.map visualOf]
        if sheets2.length > 200 then
          { sheets := sheets2, warnings := warnings ++ [abortWarning], visuals := visuals2 }
        else packLoop cfg cons fuel st.items st.idx sheets2 warnings visuals2
    else { sheets := sheets, warnings := warnings, visuals := visuals }

namespace Script

/-- src/script.js `packSheetsGuillotine(pieces, conservativeMode)`:
explode quantities, sort, run the sheet loop with empty accumulators. -/
def packSheetsGuillotine (pieces : List Piece) (conservativeMode : Bool) : PackResult :=
  let items := sortPieces (explode pieces)
  packLoop config conservativeMode items.length items 0 [] [] []

end Script

/-! ## The pre-orchestration oversized filter of processInput -/

/-- The oversized test applied by `processInput` before packing:
`p.width > sheetWidth && p.height > sheetHeight && p.width > sheetHeight
&& p.height > sheetWidth` (all four conjuncts, as written). -/
def tooBigFilter (cfg : Config) (p : Piece) : Bool :=
  decide (p.width > cfg.sheetWidth) && decide (p.height > cfg.sheetHeight) &&
  decide (p.width > cfg.sheetHeight) && decide (p.height > cfg.sheetWidth)

/-- The formatted error entry `` ow" x oh" (qty PCS) ``; the format is
injective in the triple for quote-free tokens, so the string is
modelled by the triple it displays. -/
def errorLabel (p : Piece) : String × String × ℕ :=
  (p.originalWidth, p.originalHeight, p.qty)

/-- `processInput`'s split of the parsed pieces into the oversized error
list and the `validPieces` handed to `packSheetsGuillotine` (the valid
list is filtered by membership of the formatted string in `tooBig`). -/
def processInputSplit (cfg : Config) (pieces : List Piece) :
    List (String × String × ℕ) × List Piece :=
  let tooBig := (pieces.filter (tooBigFilter cfg)).map errorLabel
  (tooBig, pieces.filter fun p => !(tooBig.contains (errorLabel p)))

/-- Spec-side predicate (from the specification's words, for claim C1):
the piece's footprint fits the sheet in neither orientation. -/
def fitsNeither (cfg : Config) (p : Piece) : Bool :=
  !(decide (p.width ≤ cfg.sheetWidth) && decide (p.height ≤ cfg.sheetHeight)) &&
  !(decide (p.height ≤ cfg.sheetWidth) && decide (p.width ≤ cfg.sheetHeight))

/-! ## Strip mode (src/unnamed/part_001) -/

namespace Part001

/-- `Math.round`: round half toward positive infinity. -/
def jsRound (q : ℚ) : ℤ := ⌊q + 1/2⌋

/-- `x.toFixed(4)` re-read by `parseFloat`: round to four decimal
digits, ties away from zero (the sign is split off before rounding in
the toFixed algorithm). -/
def toFixed4 (q : ℚ) : ℚ :=
  if q < 0 then -((jsRound (-q * 10000) : ℚ) / 10000)
  else (jsRound (q * 10000) : ℚ) / 10000

/-- The width bucket of a piece: `Math.round(p.width / tol) * tol`. -/
def bucketVal (cfg : Config) (w : ℚ) : ℚ :=
  (jsRound (w / cfg.stripWidthTolerance) : ℚ) * cfg.stripWidthTolerance

/-- The Map key `rounded.toFixed(4)` together with the later
`parseFloat(bestKey)`: distinct multiples of the 1/32 tolerance are at
distance ≥ 1/32 > 2·10⁻⁴ apart, so the four-decimal rendering is
injective on bucket values and the string key is modelled by the
rational value it denotes. -/
def bucketKey (cfg : Config) (w : ℚ) : ℚ := toFixed4 (bucketVal cfg w)

/-- `counts.set(key, (counts.get(key) || 0) + p.qty)` on an
insertion-ordered map. -/
def addCount (k : ℚ) (q : ℕ) : List (ℚ × ℕ) → List (ℚ × ℕ)
  | [] => [(k, q)]
  | (k2, c) :: rest =>
    if k2 = k then (k2, c + q) :: rest else (k2, c) :: addCount k q rest

/-- The `{ commonWidth, ratio }` record of `detectCommonWidth`. -/
structure CommonWidth where
  commonWidth : Option ℚ
  ratio : ℚ
deriving Repr, DecidableEq

/-- `detectCommonWidth(pieces)`: bucket quantities by rounded width,
take the first strict maximum, divide by the total quantity. -/
def detectCommonWidth (cfg : Config) (pieces : List Piece) : CommonWidth :=
  let totalQty := pieces.foldl (fun (a : ℕ) p => a + p.qty) 0
  let counts := pieces.foldl (fun m p => addCount (bucketKey cfg p.width) p.qty m) []
  let best := counts.foldl
    (fun (b : Option ℚ × ℕ) kc => if kc.2 > b.2 then (some kc.1, kc.2) else b) (none, 0)
  { commonWidth := best.1
    ratio := if totalQty = 0 then 0 else (best.2 : ℚ) / (totalQty : ℚ) }

/-- One part placed in a strip column. -/
structure StripPart where
  item : Piece
  x : ℚ
  y : ℚ
  width : ℚ
  height : ℚ
deriving Repr, DecidableEq

/-- One column `{ used, parts }`. -/
structure Column where
  used : ℚ
  parts : List StripPart
deriving Repr, DecidableEq

/-- `for (const col of columns) { ... break }`: place the item in the
first column with room (sheet height plus the 1e-6 slack), advancing
that column's running height; `none` when no column can take it. -/
def placeInColumns (cfg : Config) (cwidth : ℚ) (item : Piece) :
    List Column → Option (List Column)
  | [] => none
  | col :: rest =>
    if decide (col.used + item.height + (if col.parts.length ≠ 0 then cfg.kerf else 0)
        ≤ cfg.sheetHeight + 1/1000000) then
      let y := col.used + (if col.parts.length ≠ 0 then cfg.kerf else 0)
      some ({ used := y + item.height
              parts := col.parts ++ [⟨item, 0, y, cwidth, item.height⟩] } :: rest)
    else
      match placeInColumns cfg cwidth item rest with
      | some rest2 => some (col :: rest2)
      | none => none

/-- State of the per-sheet strip filling loop. -/
structure StripFillSt where
  items : List Piece
  i : ℕ
  columns : List Column
deriving Repr

/-- The `for (let j = i; j < stripItems.length; j++)` loop of one strip
sheet: first-fit into the columns, swap-consume on success, early break
once every item is consumed.  `fuel` counts the remaining iterations. -/
def stripFill (cfg : Config) (cwidth : ℚ) : ℕ → ℕ → StripFillSt → StripFillSt
  | 0, _, st => st
  | fuel + 1, j, st =>
    if j < st.items.length then
      match placeInColumns cfg cwidth (st.items.getD j default) st.columns with
      | some cols2 =>
        if st.i + 1 ≥ (swapConsume st.items j st.i).length then
          { items := swapConsume st.items j st.i, i := st.i + 1, columns := cols2 }
        else
          stripFill cfg cwidth fuel (j+1)
            { items := swapConsume st.items j st.i, i := st.i + 1, columns := cols2 }
      | none => stripFill cfg cwidth fuel (j+1) st
    else st

/-- Total number of parts currently held by the columns. -/
def totalParts (cols : List Column) : ℕ :=
  cols.foldl (fun a c => a + c.parts.length) 0

/-- Aggregation of one finished strip sheet: visuals at the column
x-offsets (kerf is consumed, not drawn) and the insertion-ordered
`sheetPiecesMap` keyed by the display dimensions (never rotated). -/
def stripSheet (cfg : Config) (cwidth : ℚ) (columns : List Column) : Sheet × List Visual :=
  let flat := columns.enum.flatMap fun ci =>
    ci.2.parts.map fun p => ((ci.1 : ℚ) * cwidth, p)
  let vis := flat.map fun xp => Visual.mk xp.1 xp.2.y xp.2.width xp.2.height
  let m := flat.foldl
    (fun m xp => bumpEntry (key1 xp.2.item) xp.2.item false m) []
  let sheetPieces := m.map Prod.snd
  ({ pieces := sheetPieces
     cuts := sheetPieces.foldl
       (fun acc r => acc + (if isEfficient cfg r.piece then r.count else r.count * 2)) 0
     edges := sheetPieces.foldl (fun acc r => acc + r.piece.edges * r.count) 0 }, vis)

/-- The `while (i < stripItems.length)` sheet loop of strip mode;
returns the accumulated sheets and visuals, the consumed index and the
final (permuted) item array.  Each continuing iteration consumes at
least one item, so `items.length` is a sufficient fuel from the
wrapper. -/
def stripLoop (cfg : Config) (cwidth : ℚ) (cols : ℕ) :
    ℕ → List Piece → ℕ → List Sheet → List (List Visual) →
    List Sheet × List (List Visual) × ℕ × List Piece
  | 0, items, i, sheets, visuals => (sheets, visuals, i, items)
  | fuel + 1, items, i, sheets, visuals =>
    if i < items.length then
      let st := stripFill cfg cwidth (items.length - i) i ⟨items, i, List.replicate cols ⟨0, []⟩⟩
      if totalParts st.columns = 0 then (sheets, visuals, i, items)
      else
        let sv := stripSheet cfg cwidth st.columns
        stripLoop cfg cwidth cols fuel st.items st.i (sheets ++ [sv.1]) (visuals ++ [sv.2])
    else (sheets, visuals, i, items)

/-- `b.height - a.height` descending, strictly. -/
def stripKeyGt (a b : Piece) : Bool := decide (b.height < a.height)

/-- Stable insertion for the strip sort. -/
def stripInsert (x : Piece) : List Piece → List Piece
  | [] => [x]
  | y :: ys => if stripKeyGt x y then x :: y :: ys else y :: stripInsert x ys

/-- The strip items sort (stable, by descending height). -/
def sortStrip (l : List Piece) : List Piece :=
  l.foldl (fun acc x => stripInsert x acc) []

/-- The `columnsPerSheet` safety decrement loop:
`while (cps * commonWidth > sheetWidth + 1e-6 && cps > 1) cps--`. -/
def shrinkCols (cfg : Config) (c : ℚ) : ℕ → ℕ
  | 0 => 0
  | n+1 =>
    if decide ((n+1 : ℚ) * c > cfg.sheetWidth + 1/1000000) && decide (n+1 > 1) then
      shrinkCols cfg c n
    else n+1

/-- The `{ sheets, visuals, remaining }` result of the strip pass. -/
structure StripResult where
  sheets : List Sheet
  visuals : List (List Visual)
  remaining : List Piece
deriving Repr, DecidableEq

/-- src/unnamed/part_001 `packSheetsStripMode(pieces, conservativeMode)`.
The `if (!commonWidth) return null` test is truthiness-based: it fires
both when no bucket was found and when the common width equals 0. -/
def packSheetsStripMode (cfg : Config) (pieces : List Piece) (_cons : Bool) :
    Option StripResult :=
  let d := detectCommonWidth cfg pieces
  match d.commonWidth with
  | none => none
  | some c =>
    if c = 0 then none
    else
      let tol := cfg.stripWidthTolerance + 1/1000000
      let stripItems := pieces.flatMap fun p =>
        if decide (|p.width - c| ≤ tol) then List.replicate p.qty p else []
      let otherItems := pieces.filter fun p => !decide (|p.width - c| ≤ tol)
      if !cfg.stripModeAuto || stripItems.length = 0 || decide (d.ratio < 7/10) then none
      else
        let perCol := c + cfg.kerf
        let cols0 : ℤ := max 1 ⌊(cfg.sheetWidth + cfg.kerf) / perCol⌋
        let cols := shrinkCols cfg c cols0.toNat
        let sorted := sortStrip stripItems
        let r := stripLoop cfg c cols sorted.length sorted 0 [] []
        some { sheets := r.1
               visuals := r.2.1
               remaining := r.2.2.2.drop r.2.2.1 ++ otherItems }

/-- src/unnamed/part_001 `packSheetsGuillotine(pieces, conservativeMode)`:
strip pass first (accepting its sheets and visuals), then the shared
general MaxRects loop on the remaining items. -/
def packSheetsGuillotine (pieces : List Piece) (conservativeMode : Bool) : PackResult :=
  match packSheetsStripMode config pieces conservativeMode with
  | some sr =>
    if sr.remaining.length ≠ 0 then
      packLoop config conservativeMode (sortPieces sr.remaining).length
        (sortPieces sr.remaining) 0 sr.sheets [] sr.visuals
    else { sheets := sr.sheets, warnings := [], visuals := sr.visuals }
  | none =>
    let remaining := explode pieces
    if remaining.length ≠ 0 then
      packLoop config conservativeMode (sortPieces remaining).length
        (sortPieces remaining) 0 [] [] []
    else { sheets := [], warnings := [], visuals := [] }

end Part001

/-! ## Generic class counting (used to state the conservative cap) -/

/-- Count of distinct classes of a list under a (reflexive, symmetric,
transitive) boolean relation, scanning left to right with a `seen` list
of representatives. -/
def countClassesByAux (E : α → α → Bool) : List α → List α → ℕ
  | _, [] => 0
  | seen, x :: xs =>
    if seen.any (fun y => E x y) then countClassesByAux E seen xs
    else 1 + countClassesByAux E (x :: seen) xs

/-- Number of distinct classes of `l` under `E`. -/
def countClassesBy (E : α → α → Bool) (l : List α) : ℕ := countClassesByAux E [] l

/-- Unordered equality of numeric dimension pairs: a width×height pair
and its reversed pair count as the same. -/
def dimPairEquiv (a b : ℚ × ℚ) : Bool :=
  decide (a = b) || decide (a.1 = b.2 ∧ a.2 = b.1)

/-- Unordered equality of display-label pairs. -/
def labPairEquiv (a b : String × String) : Bool :=
  decide (a = b) || decide (a.1 = b.2 ∧ a.2 = b.1)

/-- The display-label pair of a piece. -/
def labPair (p : Piece) : String × String := (p.originalWidth, p.originalHeight)

/-- A display label that does not contain the `×` separator character,
so that the conservative-limiter key strings are decodable. -/
@[reducible] def goodLabel (s : String) : Prop := '×' ∉ s.data

/-- Both labels of the piece are separator-free. -/
@[reducible] def goodPiece (p : Piece) : Prop :=
  goodLabel p.originalWidth ∧ goodLabel p.originalHeight

/-- A full-sheet piece (48×96) with quantity 201: drives the strip pass
past the 200-sheet cap. -/
def capPiece : Piece := ⟨"48", "96", 48, 96, 201, 0⟩

/-! ## Geometry predicates (used to state the no-overlap invariant) -/

/-- `a` lies inside `b`: weak containment of the closed footprint
intervals on both axes. -/
def insideRect (a b : Rect) : Prop :=
  b.x ≤ a.x ∧ b.y ≤ a.y ∧
  a.x + a.width ≤ b.x + b.width ∧ a.y + a.height ≤ b.y + b.height

/-- The kerf-inflated region consumed from the free list by `_place`. -/
def consumeOf (node : Rect) (kerf : ℚ) : Rect :=
  ⟨node.x, node.y, node.width + kerf, node.height + kerf⟩

/-- The invariant maintained by `insert`/`_place`: no free rectangle
overlaps a used rectangle, and the used rectangles are pairwise
overlap-free (the `_overlaps` closed-interval test is false). -/
def binInv (b : MaxRectsBin) : Prop :=
  (∀ f ∈ b.freeRects, ∀ u ∈ b.usedRects, MaxRectsBin.overlapsB u f = false) ∧
  List.Pairwise (fun u1 u2 => MaxRectsBin.overlapsB u1 u2 = false) b.usedRects

/-- The footprint rectangle recorded in a `placed` entry. -/
def rectOfPlaced (pl : PlacedEntry) : Rect := ⟨pl.x, pl.y, pl.width, pl.height⟩

/-- The footprint rectangle of a visual box. -/
def rectOfVisual (v : Visual) : Rect := ⟨v.x, v.y, v.width, v.height⟩

/-- Pairwise non-overlap (the `_overlaps` closed-interval test is false)
of the footprints of a list of visual boxes. -/
def footprintsDisjoint (vs : List Visual) : Prop :=
  List.Pairwise
    (fun a b => MaxRectsBin.overlapsB (rectOfVisual a) (rectOfVisual b) = false) vs

/-! ## Heap model of the record-copy allocations (for the frame claim)

Both packers touch the caller's piece records only in their copy loops
(script.js lines 204-213, part_001 lines 105-114): every record pushed
onto a working array is a fresh spread copy `{ ...p }`, and no later
statement of either packer assigns to a field of any piece record (the
loops reorder the address arrays and mutate only bins, columns and
accumulators).  The heap model makes the store explicit: a store is the
list of allocated piece cells, a reference an index into it, and the
copy loops are the only operations that extend it. -/

/-- Dereference: read the piece record held in a store cell. -/
def readRef (store : List Piece) (r : ℕ) : Piece := store.getD r default

/-- `for (let i = 0; i < p.qty; i++) items.push({ ...p })`: allocate
`p.qty` fresh cells holding copies of the already-read record `p` and
record their addresses. -/
def pushCopies (p : Piece) (acc : List Piece × List ℕ) : List Piece × List ℕ :=
  (List.range p.qty).foldl (fun a _ => (a.1 ++ [p], a.2 ++ [a.1.length])) acc

/-- The explode loop of script.js `packSheetsGuillotine` in the heap
model: read each referenced record once, push exploded copies. -/
def explodeStore (store : List Piece) (refs : List ℕ) : List Piece × List ℕ :=
  refs.foldl (fun acc r => pushCopies (readRef acc.1 r) acc) (store, [])

/-- Heap model of script.js `packSheetsGuillotine`: after the explode
loop allocates the copies, the rest of the run reads only the copied
values, so it is the pure sheet loop applied to them; the final store
is the explode loop's. -/
def packGuillotineStore (store : List Piece) (refs : List ℕ) (cons : Bool) :
    PackResult × List Piece :=
  let es := explodeStore store refs
  let items := sortPieces (List.map (readRef es.1) es.2)
  (packLoop config cons items.length items 0 [] [] [], es.1)

/-- The strip/other split loop of part_001 `packSheetsStripMode` in the
heap model: a strip record is exploded into `qty` fresh copies, any
other record gets one fresh copy; the two address lists are kept
separately.  `cw`/`tol` are the detected common width and the bucket
tolerance already computed from (reads of) the caller's records. -/
def stripAllocStore (cw tol : ℚ) (store : List Piece) (refs : List ℕ) :
    List Piece × List ℕ × List ℕ :=
  refs.foldl
    (fun acc r =>
      let p := readRef acc.1 r
      if decide (|p.width - cw| ≤ tol) then
        let a2 := pushCopies p (acc.1, acc.2.1)
        (a2.1, a2.2, acc.2.2)
      else
        (acc.1 ++ [p], acc.2.1, acc.2.2 ++ [acc.1.length]))
    (store, [], [])

/-- Heap model of part_001 `packSheetsStripMode`: the early
`!commonWidth` returns allocate nothing; otherwise the split loop
allocates the copies and the rest of the pass reads only the copied
values, mirroring the body of `Part001.packSheetsStripMode`. -/
def packStripStore (cfg : Config) (store : List Piece) (refs : List ℕ) (_cons : Bool) :
    Option Part001.StripResult × List Piece :=
  let pieces := List.map (readRef store) refs
  let d := Part001.detectCommonWidth cfg pieces
  match d.commonWidth with
  | none => (none, store)
  | some c =>
    if c = 0 then (none, store)
    else
      let tol := cfg.stripWidthTolerance + 1/1000000
      let al := stripAllocStore c tol store refs
      let stripItems := List.map (readRef al.1) al.2.1
      let otherItems := List.map (readRef al.1) al.2.2
      if !cfg.stripModeAuto || stripItems.length = 0 || decide (d.ratio < 7/10) then
        (none, al.1)
      else
        let perCol := c + cfg.kerf
        let cols0 : ℤ := max 1 ⌊(cfg.sheetWidth + cfg.kerf) / perCol⌋
        let cols := Part001.shrinkCols cfg c cols0.toNat
        let sorted := Part001.sortStrip stripItems
        let r := Part001.stripLoop cfg c cols sorted.length sorted 0 [] []
        (some { sheets := r.1
                visuals := r.2.1
                remaining := r.2.2.2.drop r.2.2.1 ++ otherItems }, al.1)

/-! ## Helper lemmas about the loops -/

namespace MaxRectsBin

theorem pruneScan_length_le (a : Rect) (l : List Rect) :
    (pruneScan a l).2.length ≤ l.length := by
  induction l with
  | nil => simp [pruneScan]
  | cons b bs ih =>
    simp only [pruneScan]
    split
    · simp
    · split
      · exact Nat.le_succ_of_le ih
      · simpa using ih

end MaxRectsBin

theorem swapConsume_length (l : List Piece) (j i : ℕ) :
    (swapConsume l j i).length = l.length := by
  simp [swapConsume]


/-- A general invariant-preservation principle for the sheet-filling
loop: any predicate (indexed by the loop counter) stable under the
three loop steps — conservative skip, successful insert, failed
insert — holds of the final state at some counter value. -/
theorem fillLoop_invariant (cons : Bool) (Inv : ℕ → FillSt → Prop)
    (hskip : ∀ (st : FillSt) (j : ℕ),
      j < st.items.length → consGuard cons st j = true →
      Inv j st → Inv (j+1) st)
    (hplace : ∀ (st : FillSt) (j : ℕ) (node : MaxRectsBin.Placement) (bin2 : MaxRectsBin),
      j < st.items.length → consGuard cons st j = false →
      MaxRectsBin.insert st.bin (st.items.getD j default).width
        (st.items.getD j default).height true = (some node, bin2) →
      Inv j st →
      Inv (j+1)
        { items := swapConsume st.items j st.idx
          idx := st.idx + 1
          bin := bin2
          placed := st.placed ++ [⟨node.x, node.y, node.width, node.height,
            st.items.getD j default,
            !(decide (|node.width - (st.items.getD j default).width| < 1/10000) &&
              decide (|node.height - (st.items.getD j default).height| < 1/10000))⟩]
          distinctDims := addDim st.distinctDims (key1 (st.items.getD j default)) })
    (hnone : ∀ (st : FillSt) (j : ℕ) (bin2 : MaxRectsBin),
      j < st.items.length → consGuard cons st j = false →
      MaxRectsBin.insert st.bin (st.items.getD j default).width
        (st.items.getD j default).height true = (none, bin2) →
      Inv j st → Inv (j+1) { st with bin := bin2 }) :
    ∀ (fuel j : ℕ) (st : FillSt),
      Inv j st → ∃ j2, Inv j2 (fillLoop cons fuel j st) := by
  intro fuel
  induction fuel with
  | zero =>
    intro j st hInv
    exact ⟨j, hInv⟩
  | succ n ih =>
    intro j st hInv
    rw [fillLoop]
    by_cases hj : j < st.items.length
    · rw [if_pos hj]
      by_cases hg : consGuard cons st j = true
      · rw [if_pos (by simpa [consGuard] using hg)]
        exact ih (j+1) st (hskip st j hj hg hInv)
      · rw [if_neg (by simpa [consGuard] using hg)]
        have hg2 : consGuard cons st j = false := by
          revert hg
          cases consGuard cons st j <;> simp
        split
        · rename_i node bin2 heq
          exact ih (j+1) _ (hplace st j node bin2 hj hg2 heq hInv)
        · rename_i bin2 heq
          exact ih (j+1) _ (hnone st j bin2 hj hg2 heq hInv)
    · rw [if_neg hj]
      exact ⟨j, hInv⟩

theorem fillLoop_items_length (cons : Bool) (fuel j : ℕ) (st : FillSt) :
    (fillLoop cons fuel j st).items.length = st.items.length := by
  obtain ⟨j2, h⟩ := fillLoop_invariant cons
    (fun _ s => s.items.length = st.items.length)
    (by intro s j2 hj hg hInv; exact hInv)
    (by
      intro s j2 node bin2 hj hg heq hInv
      simpa [swapConsume_length] using hInv)
    (by intro s j2 bin2 hj hg heq hInv; simpa using hInv)
    fuel j st rfl
  exact h

theorem fillLoop_idx_placed (cons : Bool) (fuel j : ℕ) (st : FillSt) :
    (fillLoop cons fuel j st).idx + st.placed.length
      = st.idx + (fillLoop cons fuel j st).placed.length := by
  obtain ⟨j2, h⟩ := fillLoop_invariant cons
    (fun _ s => s.idx + st.placed.length = st.idx + s.placed.length)
    (by intro s j2 hj hg hInv; exact hInv)
    (by
      intro s j2 node bin2 hj hg heq hInv
      simp only [List.length_append, List.length_cons, List.length_nil] at hInv ⊢
      omega)
    (by intro s j2 bin2 hj hg heq hInv; simpa using hInv)
    fuel j st rfl
  exact h

namespace Part001

/-- Invariant-preservation principle for the strip filling loop. -/
theorem stripFill_invariant (cfg : Config) (cwidth : ℚ) (Inv : StripFillSt → Prop)
    (hstep : ∀ (st : StripFillSt) (j : ℕ) (cols2 : List Column),
      j < st.items.length →
      placeInColumns cfg cwidth (st.items.getD j default) st.columns = some cols2 →
      Inv st →
      Inv { items := swapConsume st.items j st.i, i := st.i + 1, columns := cols2 }) :
    ∀ (fuel j : ℕ) (st : StripFillSt),
      Inv st → Inv (stripFill cfg cwidth fuel j st) := by
  intro fuel
  induction fuel with
  | zero => intro j st hInv; exact hInv
  | succ n ih =>
    intro j st hInv
    rw [stripFill]
    by_cases hj : j < st.items.length
    · rw [if_pos hj]
      split
      · rename_i cols2 heq
        have hInv2 := hstep st j cols2 hj heq hInv
        split
        · exact hInv2
        · exact ih (j+1) _ hInv2
      · exact ih (j+1) st hInv
    · rw [if_neg hj]
      exact hInv

theorem stripFill_items_length (cfg : Config) (cwidth : ℚ) (fuel j : ℕ) (st : StripFillSt) :
    (stripFill cfg cwidth fuel j st).items.length = st.items.length := by
  exact stripFill_invariant cfg cwidth (fun s => s.items.length = st.items.length)
    (by intro s j2 cols2 hj heq hInv; simpa [swapConsume_length] using hInv)
    fuel j st rfl

theorem totalParts_cons (c : Column) (r : List Column) :
    totalParts (c :: r) = c.parts.length + totalParts r := by
  have key : ∀ (n : ℕ) (cols : List Column),
      cols.foldl (fun a c2 => a + c2.parts.length) n = n + totalParts cols := by
    intro n cols
    induction cols generalizing n with
    | nil => simp [totalParts]
    | cons c2 rest ih =>
      simp only [totalParts, List.foldl_cons, Nat.zero_add] at ih ⊢
      rw [ih, ih c2.parts.length]
      omega
  simp only [totalParts, List.foldl_cons, Nat.zero_add]
  rw [key]
  rfl

theorem totalParts_replicate (n : ℕ) :
    totalParts (List.replicate n (Column.mk 0 [])) = 0 := by
  induction n with
  | zero => simp [totalParts]
  | succ m ihm => simp [List.replicate_succ, totalParts_cons, ihm]

theorem placeInColumns_totalParts (cfg : Config) (cwidth : ℚ) (item : Piece) :
    ∀ (cols cols2 : List Column),
      placeInColumns cfg cwidth item cols = some cols2 →
      totalParts cols2 = totalParts cols + 1 := by
  intro cols
  induction cols with
  | nil => intro cols2 h; simp [placeInColumns] at h
  | cons col rest ih =>
    intro cols2 h
    rw [placeInColumns] at h
    split at h
    all_goals
      split at h
      · simp only [Option.some.injEq] at h
        subst h
        simp only [totalParts_cons, List.length_append, List.length_cons, List.length_nil]
        omega
      · split at h
        · rename_i rest2 heq
          simp only [Option.some.injEq] at h
          subst h
          have := ih rest2 heq
          simp only [totalParts_cons]
          omega
        · exact absurd h (by simp)

theorem stripFill_i_parts (cfg : Config) (cwidth : ℚ) (fuel j : ℕ) (st : StripFillSt) :
    (stripFill cfg cwidth fuel j st).i + totalParts st.columns
      = st.i + totalParts (stripFill cfg cwidth fuel j st).columns := by
  exact stripFill_invariant cfg cwidth
    (fun s => s.i + totalParts st.columns = st.i + totalParts s.columns)
    (by
      intro s j2 cols2 hj heq hInv
      have := placeInColumns_totalParts cfg cwidth (s.items.getD j2 default) s.columns cols2 heq
      simp only at *
      omega)
    fuel j st rfl


end Part001

/-! ## Best-Short-Side-Fit selection lemmas (claim C3) -/

namespace MaxRectsBin

theorem scoreLe_refl (a : ℚ × ℚ) : scoreLe a a := Or.inr ⟨rfl, le_rfl⟩

theorem scoreLe_trans {a b c : ℚ × ℚ} (h1 : scoreLe a b) (h2 : scoreLe b c) :
    scoreLe a c := by
  rcases h1 with h1 | ⟨e1, l1⟩ <;> rcases h2 with h2 | ⟨e2, l2⟩
  · exact Or.inl (h1.trans h2)
  · exact Or.inl (lt_of_lt_of_le h1 (le_of_eq e2))
  · exact Or.inl (lt_of_le_of_lt (le_of_eq e1) h2)
  · exact Or.inr ⟨e1.trans e2, l1.trans l2⟩

theorem betterThan_true {c0 : Rect × Bool} {s l s0 l0 : ℚ}
    (h : betterThan s l (some (c0, s0, l0)) = true) : scoreLe (s, l) (s0, l0) := by
  simp only [betterThan, Bool.or_eq_true, Bool.and_eq_true, decide_eq_true_eq] at h
  rcases h with h | ⟨he, hl⟩
  · exact Or.inl h
  · exact Or.inr ⟨he, le_of_lt hl⟩

theorem betterThan_false {c0 : Rect × Bool} {s l s0 l0 : ℚ}
    (h : betterThan s l (some (c0, s0, l0)) = false) : scoreLe (s0, l0) (s, l) := by
  by_cases h1 : s < s0
  · simp [betterThan, h1] at h
  · by_cases h2 : s = s0
    · by_cases h3 : l < l0
      · simp [betterThan, h1, h2, h3] at h
      · exact Or.inr ⟨h2.symm, not_lt.mp h3⟩
    · exact Or.inl (lt_of_le_of_ne (not_lt.mp h1) (Ne.symm h2))

theorem pickBetter_none_iff {c : Rect × Bool} {s l : ℚ} {cond : Bool}
    {st : Option ((Rect × Bool) × ℚ × ℚ)} :
    pickBetter c s l cond st = none ↔ st = none ∧ cond = false := by
  cases st with
  | none => cases cond <;> simp [pickBetter, betterThan]
  | some q =>
    simp only [pickBetter]
    split <;> simp

theorem pickBetter_some_of_some {c : Rect × Bool} {s l : ℚ} {cond : Bool}
    {st : Option ((Rect × Bool) × ℚ × ℚ)} {q : (Rect × Bool) × ℚ × ℚ}
    (h : st = some q) : ∃ q2, pickBetter c s l cond st = some q2 := by
  subst h
  unfold pickBetter
  split
  · exact ⟨_, rfl⟩
  · exact ⟨_, rfl⟩

theorem pickBetter_some_of_cond {c : Rect × Bool} {s l : ℚ}
    {st : Option ((Rect × Bool) × ℚ × ℚ)} :
    ∃ q, pickBetter c s l true st = some q := by
  unfold pickBetter
  rw [Bool.true_and]
  by_cases hbt : betterThan s l st = true
  · rw [if_pos hbt]
    exact ⟨_, rfl⟩
  · rw [if_neg hbt]
    cases st with
    | none => simp [betterThan] at hbt
    | some q => exact ⟨q, rfl⟩

theorem pickBetter_cases {c : Rect × Bool} {s l : ℚ} {cond : Bool}
    {st : Option ((Rect × Bool) × ℚ × ℚ)} {c2 : Rect × Bool} {p2 : ℚ × ℚ}
    (h : pickBetter c s l cond st = some (c2, p2)) :
    (c2 = c ∧ p2 = (s, l) ∧ cond = true) ∨ st = some (c2, p2) := by
  unfold pickBetter at h
  split at h
  · rename_i hc
    rw [Bool.and_eq_true] at hc
    simp only [Option.some.injEq, Prod.mk.injEq] at h
    exact Or.inl ⟨h.1.symm, h.2.symm, hc.1⟩
  · exact Or.inr h

theorem pickBetter_le_init {c : Rect × Bool} {s l : ℚ} {cond : Bool}
    {st : Option ((Rect × Bool) × ℚ × ℚ)} {c0 c2 : Rect × Bool} {p0 p2 : ℚ × ℚ}
    (hst : st = some (c0, p0)) (h : pickBetter c s l cond st = some (c2, p2)) :
    scoreLe p2 p0 := by
  obtain ⟨s0, l0⟩ := p0
  subst hst
  unfold pickBetter at h
  split at h
  · rename_i hc
    rw [Bool.and_eq_true] at hc
    simp only [Option.some.injEq, Prod.mk.injEq] at h
    rw [← h.2]
    exact betterThan_true hc.2
  · simp only [Option.some.injEq, Prod.mk.injEq] at h
    rw [← h.2]
    exact scoreLe_refl _

theorem pickBetter_le_cand {c : Rect × Bool} {s l : ℚ}
    {st : Option ((Rect × Bool) × ℚ × ℚ)} {c2 : Rect × Bool} {p2 : ℚ × ℚ}
    (h : pickBetter c s l true st = some (c2, p2)) : scoreLe p2 (s, l) := by
  unfold pickBetter at h
  rw [Bool.true_and] at h
  by_cases hbt : betterThan s l st = true
  · rw [if_pos hbt] at h
    simp only [Option.some.injEq, Prod.mk.injEq] at h
    rw [← h.2]
    exact scoreLe_refl _
  · rw [if_neg hbt] at h
    cases st with
    | none => simp [betterThan] at hbt
    | some q =>
      obtain ⟨cq, sq, lq⟩ := q
      have hb : betterThan s l (some (cq, sq, lq)) = false := Bool.eq_false_iff.mpr hbt
      simp only [Option.some.injEq, Prod.mk.injEq] at h
      rw [← h.2]
      exact betterThan_false hb

theorem mem_candOf {w h kerf : ℚ} {ar : Bool} {rect : Rect} {c : Rect × Bool} :
    c ∈ candOf w h kerf ar rect ↔
      (fits (pwOf w h kerf false) (phOf w h kerf false) rect = true ∧ c = (rect, false)) ∨
      ((ar && fits (pwOf w h kerf true) (phOf w h kerf true) rect) = true ∧ c = (rect, true)) := by
  unfold candOf
  split <;> split <;> rename_i h1 h2 <;> simp_all

theorem candOf_nil_iff {w h kerf : ℚ} {ar : Bool} {rect : Rect} :
    candOf w h kerf ar rect = [] ↔
      fits (pwOf w h kerf false) (phOf w h kerf false) rect = false ∧
      (ar && fits (pwOf w h kerf true) (phOf w h kerf true) rect) = false := by
  unfold candOf
  split <;> split <;> simp_all

theorem insertStep_none_iff {w h kerf : ℚ} {ar : Bool}
    {st : Option ((Rect × Bool) × ℚ × ℚ)} {rect : Rect} :
    insertStep w h kerf ar st rect = none ↔
      st = none ∧ candOf w h kerf ar rect = [] := by
  unfold insertStep
  rw [pickBetter_none_iff, pickBetter_none_iff, candOf_nil_iff]
  tauto

theorem insertStep_some_of_some {w h kerf : ℚ} {ar : Bool}
    {st : Option ((Rect × Bool) × ℚ × ℚ)} {rect : Rect} {q : (Rect × Bool) × ℚ × ℚ}
    (hs : st = some q) : ∃ q2, insertStep w h kerf ar st rect = some q2 := by
  unfold insertStep
  obtain ⟨q1, hq1⟩ := @pickBetter_some_of_some (rect, false)
    (shortOf w h kerf false rect) (longOf w h kerf false rect)
    (fits (pwOf w h kerf false) (phOf w h kerf false) rect) _ _ hs
  rw [hq1]
  exact pickBetter_some_of_some rfl

theorem insertStep_cases {w h kerf : ℚ} {ar : Bool}
    {st : Option ((Rect × Bool) × ℚ × ℚ)} {rect : Rect}
    {c2 : Rect × Bool} {p2 : ℚ × ℚ}
    (hs : insertStep w h kerf ar st rect = some (c2, p2)) :
    (c2 ∈ candOf w h kerf ar rect ∧ p2 = score w h kerf c2) ∨ st = some (c2, p2) := by
  unfold insertStep at hs
  rcases pickBetter_cases hs with ⟨hc, hp, hcond⟩ | h1
  · subst hc
    left
    refine ⟨mem_candOf.mpr (Or.inr ⟨hcond, rfl⟩), ?_⟩
    rw [hp]
    rfl
  · rcases pickBetter_cases h1 with ⟨hc, hp, hcond⟩ | h2
    · subst hc
      left
      refine ⟨mem_candOf.mpr (Or.inl ⟨hcond, rfl⟩), ?_⟩
      rw [hp]
      rfl
    · exact Or.inr h2

theorem insertStep_le_init {w h kerf : ℚ} {ar : Bool}
    {st : Option ((Rect × Bool) × ℚ × ℚ)} {rect : Rect}
    {c0 c2 : Rect × Bool} {p0 p2 : ℚ × ℚ}
    (hst : st = some (c0, p0)) (hs : insertStep w h kerf ar st rect = some (c2, p2)) :
    scoreLe p2 p0 := by
  unfold insertStep at hs
  obtain ⟨⟨c1, p1⟩, hq1⟩ := @pickBetter_some_of_some (rect, false)
    (shortOf w h kerf false rect) (longOf w h kerf false rect)
    (fits (pwOf w h kerf false) (phOf w h kerf false) rect) _ _ hst
  rw [hq1] at hs
  exact scoreLe_trans (pickBetter_le_init rfl hs) (pickBetter_le_init hst hq1)

theorem insertStep_le_cand {w h kerf : ℚ} {ar : Bool}
    {st : Option ((Rect × Bool) × ℚ × ℚ)} {rect : Rect}
    {c2 : Rect × Bool} {p2 : ℚ × ℚ}
    (hs : insertStep w h kerf ar st rect = some (c2, p2)) :
    ∀ c3 ∈ candOf w h kerf ar rect, scoreLe p2 (score w h kerf c3) := by
  intro c3 hc3
  rw [mem_candOf] at hc3
  unfold insertStep at hs
  rcases hc3 with ⟨hf, rfl⟩ | ⟨hf, rfl⟩
  · rw [hf] at hs
    obtain ⟨⟨c1, p1⟩, hq1⟩ := @pickBetter_some_of_cond (rect, false)
      (shortOf w h kerf false rect) (longOf w h kerf false rect) st
    rw [hq1] at hs
    exact scoreLe_trans (pickBetter_le_init rfl hs) (pickBetter_le_cand hq1)
  · rw [hf] at hs
    exact pickBetter_le_cand hs

theorem insertFoldAux_none_iff (w h kerf : ℚ) (ar : Bool) :
    ∀ (free : List Rect) (st : Option ((Rect × Bool) × ℚ × ℚ)),
      free.foldl (insertStep w h kerf ar) st = none ↔
        st = none ∧ candidates free w h kerf ar = [] := by
  intro free
  induction free with
  | nil => intro st; simp [candidates]
  | cons rect rest ih =>
    intro st
    rw [List.foldl_cons, ih, insertStep_none_iff]
    simp only [candidates, List.flatMap_cons, List.append_eq_nil]
    unfold candidates at *
    tauto

theorem insertFoldAux_le_init (w h kerf : ℚ) (ar : Bool) :
    ∀ (free : List Rect) (st : Option ((Rect × Bool) × ℚ × ℚ))
      (c0 c : Rect × Bool) (p0 p : ℚ × ℚ),
      st = some (c0, p0) →
      free.foldl (insertStep w h kerf ar) st = some (c, p) →
      scoreLe p p0 := by
  intro free
  induction free with
  | nil =>
    intro st c0 c p0 p hst hf
    rw [List.foldl_nil] at hf
    rw [hst] at hf
    simp only [Option.some.injEq, Prod.mk.injEq] at hf
    rw [← hf.2]
    exact scoreLe_refl _
  | cons rect rest ih =>
    intro st c0 c p0 p hst hf
    rw [List.foldl_cons] at hf
    obtain ⟨⟨c1, p1⟩, hq1⟩ := @insertStep_some_of_some w h kerf ar _ rect _ hst
    rw [hq1] at hf
    exact scoreLe_trans (ih _ c1 c p1 p rfl hf) (insertStep_le_init hst hq1)

theorem insertFoldAux_cases (w h kerf : ℚ) (ar : Bool) :
    ∀ (free : List Rect) (st : Option ((Rect × Bool) × ℚ × ℚ))
      (c : Rect × Bool) (p : ℚ × ℚ),
      free.foldl (insertStep w h kerf ar) st = some (c, p) →
      (c ∈ candidates free w h kerf ar ∧ p = score w h kerf c) ∨ st = some (c, p) := by
  intro free
  induction free with
  | nil =>
    intro st c p hf
    rw [List.foldl_nil] at hf
    exact Or.inr hf
  | cons rect rest ih =>
    intro st c p hf
    rw [List.foldl_cons] at hf
    rcases ih _ c p hf with ⟨hmem, hsc⟩ | h1
    · exact Or.inl ⟨by
        simp only [candidates, List.flatMap_cons, List.mem_append]
        right
        simpa [candidates] using hmem, hsc⟩
    · rcases insertStep_cases h1 with ⟨hmem, hsc⟩ | h2
      · exact Or.inl ⟨by
          simp only [candidates, List.flatMap_cons, List.mem_append]
          left
          exact hmem, hsc⟩
      · exact Or.inr h2

theorem insertFoldAux_le_cand (w h kerf : ℚ) (ar : Bool) :
    ∀ (free : List Rect) (st : Option ((Rect × Bool) × ℚ × ℚ))
      (c : Rect × Bool) (p : ℚ × ℚ),
      free.foldl (insertStep w h kerf ar) st = some (c, p) →
      ∀ c2 ∈ candidates free w h kerf ar, scoreLe p (score w h kerf c2) := by
  intro free
  induction free with
  | nil =>
    intro st c p hf c2 hc2
    simp [candidates] at hc2
  | cons rect rest ih =>
    intro st c p hf c2 hc2
    rw [List.foldl_cons] at hf
    simp only [candidates, List.flatMap_cons, List.mem_append] at hc2
    rcases hc2 with hc2 | hc2
    · cases hst1 : insertStep w h kerf ar st rect with
      | none =>
        rw [insertStep_none_iff] at hst1
        rw [hst1.2] at hc2
        simp at hc2
      | some q1 =>
        obtain ⟨c1, p1⟩ := q1
        rw [hst1] at hf
        exact scoreLe_trans (insertFoldAux_le_init w h kerf ar rest _ c1 c p1 p rfl hf)
          (insertStep_le_cand hst1 c2 hc2)
    · exact ih _ c p hf c2 (by simpa [candidates] using hc2)

theorem insert_some_decompose (b : MaxRectsBin) (w h : ℚ) (ar : Bool)
    (pl : Placement) (b2 : MaxRectsBin)
    (hins : MaxRectsBin.insert b w h ar = (some pl, b2)) :
    ∃ c ∈ candidates b.freeRects w h b.kerf ar,
      pl = ⟨(nodeOf w h c).x, (nodeOf w h c).y, (nodeOf w h c).width,
        (nodeOf w h c).height, c.2⟩ ∧
      b2 = place b (nodeOf w h c) := by
  unfold insert at hins
  cases hfold : insertFold w h b.kerf ar b.freeRects with
  | none => rw [hfold] at hins; simp at hins
  | some q =>
    obtain ⟨c, s, l⟩ := q
    rw [hfold] at hins
    simp only [Prod.mk.injEq, Option.some.injEq] at hins
    unfold insertFold at hfold
    rcases insertFoldAux_cases w h b.kerf ar b.freeRects none c (s, l) hfold with
      ⟨hmem, -⟩ | habs
    · exact ⟨c, hmem, hins.1.symm, hins.2.symm⟩
    · simp at habs

end MaxRectsBin

/-- C3: `MaxRectsBin.insert` implements Best-Short-Side-Fit exactly.
The fitting (rectangle, orientation) pairs are characterized by the
`_fits` test on the kerf-inflated dimensions; when no pair fits,
`insert` returns null and leaves the bin unchanged; when some pair
fits, the returned placement realizes a fitting candidate whose
`(leftoverShort, leftoverLong)` score is lexicographically minimal
(smallest `leftoverShort`, ties broken by smallest `leftoverLong`) over
all fitting pairs. -/
theorem claim3_insert_best_short_side_fit (b : MaxRectsBin) (w h : ℚ) (ar : Bool) :
    (∀ (rect : Rect) (rot : Bool),
      ((rect, rot) ∈ MaxRectsBin.candidates b.freeRects w h b.kerf ar ↔
        rect ∈ b.freeRects ∧
        MaxRectsBin.fits (MaxRectsBin.pwOf w h b.kerf rot)
          (MaxRectsBin.phOf w h b.kerf rot) rect = true ∧
        (rot = true → ar = true))) ∧
    (MaxRectsBin.candidates b.freeRects w h b.kerf ar = [] →
      MaxRectsBin.insert b w h ar = (none, b)) ∧
    (MaxRectsBin.candidates b.freeRects w h b.kerf ar ≠ [] →
      ∃ c ∈ MaxRectsBin.candidates b.freeRects w h b.kerf ar,
        (MaxRectsBin.insert b w h ar).1 = some ⟨(MaxRectsBin.nodeOf w h c).x,
          (MaxRectsBin.nodeOf w h c).y, (MaxRectsBin.nodeOf w h c).width,
          (MaxRectsBin.nodeOf w h c).height, c.2⟩ ∧
        ∀ c2 ∈ MaxRectsBin.candidates b.freeRects w h b.kerf ar,
          MaxRectsBin.scoreLe (MaxRectsBin.score w h b.kerf c)
            (MaxRectsBin.score w h b.kerf c2)) := by
  refine ⟨?_, ?_, ?_⟩
  · intro rect rot
    constructor
    · intro hmem
      simp only [MaxRectsBin.candidates, List.mem_flatMap] at hmem
      obtain ⟨r, hr, hc⟩ := hmem
      rcases MaxRectsBin.mem_candOf.mp hc with ⟨hf, he⟩ | ⟨hf, he⟩
      · simp only [Prod.mk.injEq] at he
        obtain ⟨he1, he2⟩ := he
        subst he1; subst he2
        exact ⟨hr, hf, by simp⟩
      · simp only [Prod.mk.injEq] at he
        obtain ⟨he1, he2⟩ := he
        subst he1; subst he2
        rw [Bool.and_eq_true] at hf
        exact ⟨hr, hf.2, fun _ => hf.1⟩
    · rintro ⟨hmem, hfits, har⟩
      simp only [MaxRectsBin.candidates, List.mem_flatMap]
      refine ⟨rect, hmem, MaxRectsBin.mem_candOf.mpr ?_⟩
      cases rot with
      | false => exact Or.inl ⟨hfits, rfl⟩
      | true => exact Or.inr ⟨by rw [har rfl, hfits]; rfl, rfl⟩
  · intro hnil
    unfold MaxRectsBin.insert
    cases hfold : MaxRectsBin.insertFold w h b.kerf ar b.freeRects with
    | none => rfl
    | some q =>
      obtain ⟨c, s, l⟩ := q
      unfold MaxRectsBin.insertFold at hfold
      rcases MaxRectsBin.insertFoldAux_cases w h b.kerf ar b.freeRects none c (s, l) hfold with
        ⟨hmem, -⟩ | habs
      · rw [hnil] at hmem; simp at hmem
      · simp at habs
  · intro hne
    cases hfold : MaxRectsBin.insertFold w h b.kerf ar b.freeRects with
    | none =>
      unfold MaxRectsBin.insertFold at hfold
      rw [MaxRectsBin.insertFoldAux_none_iff] at hfold
      exact absurd hfold.2 hne
    | some q =>
      obtain ⟨c, s, l⟩ := q
      have hq := hfold
      unfold MaxRectsBin.insertFold at hq
      rcases MaxRectsBin.insertFoldAux_cases w h b.kerf ar b.freeRects none c (s, l) hq with
        ⟨hmem, hsc⟩ | habs
      · refine ⟨c, hmem, ?_, ?_⟩
        · unfold MaxRectsBin.insert
          rw [hfold]
        · intro c2 hc2
          have := MaxRectsBin.insertFoldAux_le_cand w h b.kerf ar b.freeRects none c (s, l) hq c2 hc2
          rwa [hsc] at this
      · simp at habs

/-- Witness for C3: in a fresh 48×96 bin with kerf 0, a 10×20 piece with
rotation allowed has two fitting candidates, and `insert` returns the
score-minimal one. -/
theorem claim3_witness :
    ∃ c ∈ MaxRectsBin.candidates (MaxRectsBin.init 48 96 0).freeRects 10 20
        (MaxRectsBin.init 48 96 0).kerf true,
      (MaxRectsBin.insert (MaxRectsBin.init 48 96 0) 10 20 true).1 =
        some ⟨(MaxRectsBin.nodeOf 10 20 c).x, (MaxRectsBin.nodeOf 10 20 c).y,
          (MaxRectsBin.nodeOf 10 20 c).width, (MaxRectsBin.nodeOf 10 20 c).height, c.2⟩ ∧
      ∀ c2 ∈ MaxRectsBin.candidates (MaxRectsBin.init 48 96 0).freeRects 10 20
          (MaxRectsBin.init 48 96 0).kerf true,
        MaxRectsBin.scoreLe (MaxRectsBin.score 10 20 (MaxRectsBin.init 48 96 0).kerf c)
          (MaxRectsBin.score 10 20 (MaxRectsBin.init 48 96 0).kerf c2) :=
  (claim3_insert_best_short_side_fit (MaxRectsBin.init 48 96 0) 10 20 true).2.2
    (by with_unfolding_all decide)

/-! ## Pruning lemmas (claim C7) -/

namespace MaxRectsBin

theorem pruneScan_subset (a : Rect) :
    ∀ (l : List Rect), ∀ x ∈ (pruneScan a l).2, x ∈ l := by
  intro l
  induction l with
  | nil => simp [pruneScan]
  | cons b bs ih =>
    simp only [pruneScan]
    split
    · intro x hx
      exact hx
    · split
      · intro x hx
        exact List.mem_cons_of_mem b (ih x hx)
      · intro x hx
        rcases List.mem_cons.mp hx with h1 | h2
        · exact h1 ▸ List.mem_cons_self b bs
        · exact List.mem_cons_of_mem b (ih x h2)

theorem pruneScan_nc (a : Rect) :
    ∀ (l : List Rect), (pruneScan a l).1 = false →
      ∀ x ∈ (pruneScan a l).2, containedIn a x = false ∧ containedIn x a = false := by
  intro l
  induction l with
  | nil => simp [pruneScan]
  | cons b bs ih =>
    simp only [pruneScan]
    split
    · intro hfalse
      simp at hfalse
    · rename_i hab
      split
      · exact ih
      · rename_i hba
        intro hfalse x hx
        rcases List.mem_cons.mp hx with h1 | h2
        · subst h1
          exact ⟨Bool.eq_false_iff.mpr hab, Bool.eq_false_iff.mpr hba⟩
        · exact ih hfalse x h2

theorem pruneFreeListF_subset :
    ∀ (fuel : ℕ) (l : List Rect), ∀ x ∈ pruneFreeListF fuel l, x ∈ l := by
  intro fuel
  induction fuel with
  | zero =>
    intro l x hx
    rw [pruneFreeListF] at hx
    exact hx
  | succ n ih =>
    intro l
    match l with
    | [] => simp [pruneFreeListF]
    | a :: rest =>
      rw [pruneFreeListF]
      cases hscan : pruneScan a rest with
      | mk fst snd =>
        cases fst
        · intro x hx
          simp only at hx
          rcases List.mem_cons.mp hx with h1 | h2
          · exact h1 ▸ List.mem_cons_self a rest
          · have hsnd := ih snd x h2
            have := pruneScan_subset a rest x (by rw [hscan]; exact hsnd)
            exact List.mem_cons_of_mem a this
        · intro x hx
          simp only at hx
          have hsnd := ih snd x hx
          have := pruneScan_subset a rest x (by rw [hscan]; exact hsnd)
          exact List.mem_cons_of_mem a this

theorem pruneFreeListF_pairwise :
    ∀ (fuel : ℕ) (l : List Rect), l.length ≤ fuel →
      List.Pairwise (fun a c => containedIn a c = false ∧ containedIn c a = false)
        (pruneFreeListF fuel l) := by
  intro fuel
  induction fuel with
  | zero =>
    intro l hl
    have : l = [] := List.length_eq_zero.mp (Nat.le_zero.mp hl)
    subst this
    simp [pruneFreeListF]
  | succ n ih =>
    intro l hl
    match l with
    | [] =>
      exact List.Pairwise.nil
    | a :: rest =>
      rw [pruneFreeListF]
      cases hscan : pruneScan a rest with
      | mk fst snd =>
        have hlen : snd.length ≤ n := by
          have := pruneScan_length_le a rest
          rw [hscan] at this
          simp only at this
          simp only [List.length_cons] at hl
          omega
        cases fst
        · simp only
          refine List.Pairwise.cons ?_ (ih snd hlen)
          intro x hx
          have hsnd := pruneFreeListF_subset n snd x hx
          exact pruneScan_nc a rest (by rw [hscan]) x (by rw [hscan]; exact hsnd)
        · simp only
          exact ih snd hlen

end MaxRectsBin

/-- C7: after every successful `MaxRectsBin.insert` (i.e. after `_place`
followed by `_pruneFreeList`), the free-rectangle list contains no
rectangle fully contained in another: for no pair of distinct entries
does `_containedIn` hold in either direction. -/
theorem claim7_no_contained_free_rect (b : MaxRectsBin) (w h : ℚ) (ar : Bool)
    (pl : MaxRectsBin.Placement) (b2 : MaxRectsBin)
    (hins : MaxRectsBin.insert b w h ar = (some pl, b2)) :
    List.Pairwise
      (fun a c => MaxRectsBin.containedIn a c = false ∧ MaxRectsBin.containedIn c a = false)
      b2.freeRects := by
  obtain ⟨c, hc, hpl, hb2⟩ := MaxRectsBin.insert_some_decompose b w h ar pl b2 hins
  rw [hb2]
  show List.Pairwise _ (MaxRectsBin.pruneFreeList _)
  unfold MaxRectsBin.pruneFreeList
  exact MaxRectsBin.pruneFreeListF_pairwise _ _ le_rfl

/-- Witness for C7: inserting a 10×20 piece into a fresh 48×96 bin
succeeds with the 20×10 rotated placement at the origin, and the two
resulting free rectangles contain one another in neither direction. -/
theorem claim7_witness :
    List.Pairwise
      (fun a c => MaxRectsBin.containedIn a c = false ∧ MaxRectsBin.containedIn c a = false)
      (MaxRectsBin.mk 48 96 0 [⟨0, 10, 48, 86⟩, ⟨20, 0, 28, 10⟩] [⟨0, 0, 20, 10⟩]).freeRects :=
  claim7_no_contained_free_rect (MaxRectsBin.init 48 96 0) 10 20 true
    ⟨0, 0, 20, 10, true⟩
    (MaxRectsBin.mk 48 96 0 [⟨0, 10, 48, 86⟩, ⟨20, 0, 28, 10⟩] [⟨0, 0, 20, 10⟩])
    (by with_unfolding_all decide)

/-! ## Claim C9: a null insert leaves the bin untouched -/

theorem MaxRectsBin.insert_none_eq (b : MaxRectsBin) (w h : ℚ) (ar : Bool)
    (hn : (MaxRectsBin.insert b w h ar).1 = none) :
    (MaxRectsBin.insert b w h ar).2 = b := by
  unfold MaxRectsBin.insert at *
  cases hfold : MaxRectsBin.insertFold w h b.kerf ar b.freeRects with
  | none => simp [hfold]
  | some c => simp [hfold] at hn

/-- C9: if `MaxRectsBin.insert` returns null (no fitting candidate), the
bin state is unchanged by the call: `freeRects` and `usedRects` are
exactly what they were before `insert` was invoked. -/
theorem claim9_insert_null_leaves_bin_unchanged (b : MaxRectsBin) (w h : ℚ) (ar : Bool)
    (hn : (MaxRectsBin.insert b w h ar).1 = none) :
    (MaxRectsBin.insert b w h ar).2.freeRects = b.freeRects ∧
    (MaxRectsBin.insert b w h ar).2.usedRects = b.usedRects := by
  rw [MaxRectsBin.insert_none_eq b w h ar hn]
  exact ⟨rfl, rfl⟩

/-- Witness for C9: a concrete 5×7 piece does not fit a fresh 1×2 bin;
`insert` returns null and leaves the lone free rectangle and the empty
used list unchanged. -/
theorem claim9_witness :
    (MaxRectsBin.insert (MaxRectsBin.init 1 2 0) 5 7 true).1 = none ∧
    (MaxRectsBin.insert (MaxRectsBin.init 1 2 0) 5 7 true).2.freeRects
      = (MaxRectsBin.init 1 2 0).freeRects ∧
    (MaxRectsBin.insert (MaxRectsBin.init 1 2 0) 5 7 true).2.usedRects
      = (MaxRectsBin.init 1 2 0).usedRects :=
  ⟨by with_unfolding_all decide,
   claim9_insert_null_leaves_bin_unchanged (MaxRectsBin.init 1 2 0) 5 7 true
     (by with_unfolding_all decide)⟩

/-! ## Claim C1: the oversized filter misses the 50×100 piece -/

/-- The failing input of claim C1: one 50×100 request, quantity 1. -/
def oversizedPiece : Piece := ⟨"50", "100", 50, 100, 1, 0⟩

set_option maxRecDepth 4000000 in
/-- C1 (evaluation at the failing input): the 50×100 piece fits the
48×96 sheet in neither orientation, yet the `processInput` filter
(`w > 48 && h > 96 && w > 96 && h > 48`) does not flag it: the
oversized-error list is empty, the piece is handed to the packer, both
packer variants place it on no sheet, and the run ends with the generic
unplaceable warning instead of an oversized error. -/
theorem claim1_oversized_filter_misses_piece :
    fitsNeither config oversizedPiece = true ∧
    tooBigFilter config oversizedPiece = false ∧
    (processInputSplit config [oversizedPiece]).1 = [] ∧
    (processInputSplit config [oversizedPiece]).2 = [oversizedPiece] ∧
    (Script.packSheetsGuillotine [oversizedPiece] true).sheets = [] ∧
    (Script.packSheetsGuillotine [oversizedPiece] true).warnings = [unplaceableWarning] ∧
    (Part001.packSheetsGuillotine [oversizedPiece] true).sheets = [] ∧
    (Part001.packSheetsGuillotine [oversizedPiece] true).warnings = [unplaceableWarning] := by
  with_unfolding_all decide

/-! ## Claim C5: the worked 47.9×10 scenario -/

/-- The C5 input: one request 47.9×10, quantity 10. -/
def examplePiece : Piece := ⟨"47.9", "10", 479/10, 10, 10, 0⟩

set_option maxRecDepth 4000000 in
/-- C5: on the 48×96 sheet with kerf 0, the single request 47.9×10 qty 10
yields exactly 2 sheets — 9 pieces placed on sheet 1 and 1 piece on
sheet 2 — and no warning, in both the src/script.js packer and the
src/unnamed/part_001 strip-mode orchestrator. -/
theorem claim5_example_scenario :
    (Script.packSheetsGuillotine [examplePiece] true).sheets.length = 2 ∧
    (Script.packSheetsGuillotine [examplePiece] true).visuals.map List.length = [9, 1] ∧
    ((Script.packSheetsGuillotine [examplePiece] true).sheets.map fun s =>
      s.pieces.foldl (fun a e => a + e.count) 0) = [9, 1] ∧
    (Script.packSheetsGuillotine [examplePiece] true).warnings = [] ∧
    (Part001.packSheetsGuillotine [examplePiece] true).sheets.length = 2 ∧
    (Part001.packSheetsGuillotine [examplePiece] true).visuals.map List.length = [9, 1] ∧
    ((Part001.packSheetsGuillotine [examplePiece] true).sheets.map fun s =>
      s.pieces.foldl (fun a e => a + e.count) 0) = [9, 1] ∧
    (Part001.packSheetsGuillotine [examplePiece] true).warnings = [] := by
  with_unfolding_all decide

/-! ## Claim C4 counterexample: a zero common width deactivates strip mode -/

/-- The C4 counterexample input: one request 0.01×1, quantity 1; its
width bucket rounds to 0. -/
def tinyWidthPiece : Piece := ⟨"0.01", "1", 1/100, 1, 1, 0⟩

set_option maxRecDepth 4000000 in
/-- C4 counterexample: for the 0.01×1 request the feature is enabled,
the largest width bucket is non-empty and holds 100% of the quantity
(ratio 1 ≥ 0.7), yet `packSheetsStripMode` returns null, because the
bucket rounds to common width 0 and the truthiness test
`if (!commonWidth) return null` fires on 0.  The claimed equivalence is
therefore false at this input. -/
theorem claim4_counterexample :
    config.stripModeAuto = true ∧
    (Part001.detectCommonWidth config [tinyWidthPiece]).commonWidth = some 0 ∧
    (Part001.detectCommonWidth config [tinyWidthPiece]).ratio = 1 ∧
    Part001.packSheetsStripMode config [tinyWidthPiece] true = none ∧
    ¬((Part001.packSheetsStripMode config [tinyWidthPiece] true).isSome = true ↔
      (config.stripModeAuto = true ∧
       (Part001.detectCommonWidth config [tinyWidthPiece]).commonWidth ≠ none ∧
       (Part001.detectCommonWidth config [tinyWidthPiece]).ratio ≥ 7/10)) := by
  with_unfolding_all decide

/-! ## Claim C6 counterexample: the cap keys on labels, not dimensions -/

/-- The C6 counterexample input: seven records sharing the display
labels "a"×"b" but carrying seven different numeric dimension pairs
(the conservative limiter keys on the label strings only). -/
def sameLabelPieces : List Piece :=
  [⟨"a", "b", 1, 1, 1, 0⟩, ⟨"a", "b", 2, 1, 1, 0⟩, ⟨"a", "b", 3, 1, 1, 0⟩,
   ⟨"a", "b", 4, 1, 1, 0⟩, ⟨"a", "b", 5, 1, 1, 0⟩, ⟨"a", "b", 6, 1, 1, 0⟩,
   ⟨"a", "b", 7, 1, 1, 0⟩]

set_option maxRecDepth 4000000 in
/-- C6 counterexample: with conservativeMode on, the general pass packs
all seven pieces onto a single sheet, whose placements carry 7 distinct
unordered width×height dimension pairs — more than the claimed cap of
6 — because the limiter counts distinct `originalWidth×originalHeight`
label strings, all equal here, not dimension pairs. -/
theorem claim6_counterexample :
    (Script.packSheetsGuillotine sameLabelPieces true).sheets.length = 1 ∧
    ((Script.packSheetsGuillotine sameLabelPieces true).visuals.map fun v =>
      countClassesBy dimPairEquiv (v.map fun b => (b.width, b.height))) = [7] := by
  with_unfolding_all decide

/-! ## C2: the no-overlap invariant of the packer -/

namespace MaxRectsBin

theorem overlapsB_eq_true_iff (a b : Rect) :
    overlapsB a b = true ↔
      b.x < a.x + a.width ∧ a.x < b.x + b.width ∧
      b.y < a.y + a.height ∧ a.y < b.y + b.height := by
  simp [overlapsB, ge_iff_le, not_or, not_le, and_assoc]

theorem overlapsB_eq_false_iff (a b : Rect) :
    overlapsB a b = false ↔
      a.x + a.width ≤ b.x ∨ b.x + b.width ≤ a.x ∨
      a.y + a.height ≤ b.y ∨ b.y + b.height ≤ a.y := by
  rw [Bool.eq_false_iff, Ne, overlapsB_eq_true_iff]
  constructor
  · intro hcontra
    by_contra hc
    push_neg at hc
    obtain ⟨hc1, hc2, hc3, hc4⟩ := hc
    exact hcontra ⟨by linarith, by linarith, by linarith, by linarith⟩
  · rintro (hd | hd | hd | hd) ⟨k1, k2, k3, k4⟩ <;> linarith

theorem insideRect_trans {a b c : Rect} (h1 : insideRect a b) (h2 : insideRect b c) :
    insideRect a c := by
  obtain ⟨p1, p2, p3, p4⟩ := h1
  obtain ⟨q1, q2, q3, q4⟩ := h2
  exact ⟨le_trans q1 p1, le_trans q2 p2, le_trans p3 q3, le_trans p4 q4⟩

theorem overlapsB_mono_left {a a2 b : Rect} (hs : insideRect a a2)
    (hov : overlapsB a2 b = false) : overlapsB a b = false := by
  rw [overlapsB_eq_false_iff] at hov ⊢
  obtain ⟨p1, p2, p3, p4⟩ := hs
  rcases hov with hd | hd | hd | hd
  · exact Or.inl (by linarith)
  · exact Or.inr (Or.inl (by linarith))
  · exact Or.inr (Or.inr (Or.inl (by linarith)))
  · exact Or.inr (Or.inr (Or.inr (by linarith)))

theorem overlapsB_mono_right {a b b2 : Rect} (hs : insideRect b b2)
    (hov : overlapsB a b2 = false) : overlapsB a b = false := by
  rw [overlapsB_eq_false_iff] at hov ⊢
  obtain ⟨p1, p2, p3, p4⟩ := hs
  rcases hov with hd | hd | hd | hd
  · exact Or.inl (by linarith)
  · exact Or.inr (Or.inl (by linarith))
  · exact Or.inr (Or.inr (Or.inl (by linarith)))
  · exact Or.inr (Or.inr (Or.inr (by linarith)))

theorem insideRect_consumeOf {node : Rect} {kerf : ℚ} (hk : 0 ≤ kerf) :
    insideRect node (consumeOf node kerf) := by
  refine ⟨le_rfl, le_rfl, ?_, ?_⟩ <;> dsimp only [consumeOf] <;> linarith

/-- Every fragment emitted by `_splitFreeNode` for an intersected free
rectangle lies inside that free rectangle. -/
theorem splitFreeNode_inside {free used : Rect}
    (hov : overlapsB used free = true) :
    ∀ r ∈ splitFreeNode free used, insideRect r free := by
  obtain ⟨o1, o2, o3, o4⟩ := (overlapsB_eq_true_iff used free).mp hov
  intro r hr
  simp only [splitFreeNode, List.mem_append, List.mem_ite_nil_right,
    List.mem_singleton, Bool.and_eq_true, decide_eq_true_eq] at hr
  rcases hr with ((⟨⟨hc1, hc2⟩, rfl⟩ | ⟨hc, rfl⟩) | ⟨⟨hc1, hc2⟩, rfl⟩) | ⟨hc, rfl⟩
  · exact ⟨le_rfl, le_rfl, le_rfl, by dsimp only; linarith⟩
  · exact ⟨le_rfl, by dsimp only; linarith, le_rfl, by dsimp only; linarith⟩
  · refine ⟨le_rfl, le_max_left _ _, by dsimp only; linarith, ?_⟩
    have := min_le_left (free.y + free.height) (used.y + used.height)
    dsimp only
    linarith
  · refine ⟨by dsimp only; linarith, le_max_left _ _, by dsimp only; linarith, ?_⟩
    have := min_le_left (free.y + free.height) (used.y + used.height)
    dsimp only
    linarith

/-- Every fragment emitted by `_splitFreeNode` is overlap-free from the
consumed rectangle. -/
theorem splitFreeNode_sep (free used : Rect) :
    ∀ r ∈ splitFreeNode free used, overlapsB used r = false := by
  intro r hr
  simp only [splitFreeNode, List.mem_append, List.mem_ite_nil_right,
    List.mem_singleton, Bool.and_eq_true, decide_eq_true_eq] at hr
  rw [overlapsB_eq_false_iff]
  rcases hr with ((⟨⟨hc1, hc2⟩, rfl⟩ | ⟨hc, rfl⟩) | ⟨⟨hc1, hc2⟩, rfl⟩) | ⟨hc, rfl⟩
  · exact Or.inr (Or.inr (Or.inr (by dsimp only; linarith)))
  · exact Or.inr (Or.inr (Or.inl (by dsimp only; linarith)))
  · exact Or.inr (Or.inl (by dsimp only; linarith))
  · exact Or.inl (by dsimp only; linarith)

theorem pruneFreeList_subset (l : List Rect) : ∀ x ∈ pruneFreeList l, x ∈ l := by
  intro x hx
  exact pruneFreeListF_subset l.length l x hx

theorem place_kerf (b : MaxRectsBin) (node : Rect) : (place b node).kerf = b.kerf := rfl

theorem place_usedRects (b : MaxRectsBin) (node : Rect) :
    (place b node).usedRects = b.usedRects ++ [node] := rfl

/-- Where a free rectangle of the bin after `_place` comes from: an old
free rectangle kept untouched, or a fragment of an intersected one. -/
theorem place_free_mem {b : MaxRectsBin} {node f : Rect}
    (hf : f ∈ (place b node).freeRects) :
    ∃ g ∈ b.freeRects,
      (overlapsB (consumeOf node b.kerf) g = false ∧ f = g) ∨
      (overlapsB (consumeOf node b.kerf) g = true ∧
        f ∈ splitFreeNode g (consumeOf node b.kerf)) := by
  have hf2 : f ∈ b.freeRects.flatMap fun rect =>
      if overlapsB (consumeOf node b.kerf) rect then
        splitFreeNode rect (consumeOf node b.kerf) else [rect] :=
    pruneFreeList_subset _ f hf
  rcases List.mem_flatMap.mp hf2 with ⟨g, hg, hfin⟩
  refine ⟨g, hg, ?_⟩
  by_cases hov : overlapsB (consumeOf node b.kerf) g = true
  · rw [if_pos hov] at hfin
    exact Or.inr ⟨hov, hfin⟩
  · rw [if_neg hov] at hfin
    rw [Bool.not_eq_true] at hov
    exact Or.inl ⟨hov, List.mem_singleton.mp hfin⟩

/-- `_place` preserves the bin invariant when the consumed region fits
inside one of the current free rectangles. -/
theorem place_binInv {b : MaxRectsBin} {node f0 : Rect} (hk : 0 ≤ b.kerf)
    (hf0 : f0 ∈ b.freeRects) (hin : insideRect (consumeOf node b.kerf) f0)
    (hinv : binInv b) : binInv (place b node) := by
  have hnode : insideRect node (consumeOf node b.kerf) := insideRect_consumeOf hk
  constructor
  · intro f hf u hu
    rw [place_usedRects] at hu
    obtain ⟨g, hg, hcase⟩ := place_free_mem hf
    rcases List.mem_append.mp hu with hu | hu
    · rcases hcase with ⟨hov, rfl⟩ | ⟨hov, hsplit⟩
      · exact hinv.1 _ hg u hu
      · exact overlapsB_mono_right (splitFreeNode_inside hov f hsplit) (hinv.1 _ hg u hu)
    · rw [List.mem_singleton] at hu
      subst hu
      rcases hcase with ⟨hov, rfl⟩ | ⟨hov, hsplit⟩
      · exact overlapsB_mono_left hnode hov
      · exact overlapsB_mono_left hnode (splitFreeNode_sep _ _ f hsplit)
  · rw [place_usedRects, List.pairwise_append]
    refine ⟨hinv.2, List.pairwise_singleton _ _, ?_⟩
    intro u hu n2 hn2
    rw [List.mem_singleton] at hn2
    subst hn2
    exact overlapsB_mono_right (insideRect_trans hnode hin) (hinv.1 f0 hf0 u hu)

/-- A candidate delivered by the selection loop names a current free
rectangle and passes the `_fits` test for its orientation. -/
theorem mem_candidates_fits {free : List Rect} {w h kerf : ℚ} {ar : Bool}
    {c : Rect × Bool} (hc : c ∈ candidates free w h kerf ar) :
    c.1 ∈ free ∧ fits (pwOf w h kerf c.2) (phOf w h kerf c.2) c.1 = true := by
  rcases List.mem_flatMap.mp hc with ⟨rect, hrect, hco⟩
  rcases mem_candOf.mp hco with ⟨hf, rfl⟩ | ⟨hf, rfl⟩
  · exact ⟨hrect, hf⟩
  · rw [Bool.and_eq_true] at hf
    exact ⟨hrect, hf.2⟩

/-- The region consumed for a fitting candidate lies inside the chosen
free rectangle. -/
theorem insideRect_consume_nodeOf {w h kerf : ℚ} {c : Rect × Bool}
    (hf : fits (pwOf w h kerf c.2) (phOf w h kerf c.2) c.1 = true) :
    insideRect (consumeOf (nodeOf w h c) kerf) c.1 := by
  obtain ⟨rect, rot⟩ := c
  rw [fits, Bool.and_eq_true, decide_eq_true_eq, decide_eq_true_eq] at hf
  obtain ⟨h1, h2⟩ := hf
  cases rot <;>
    simp only [pwOf, phOf, Bool.false_eq_true, if_false, if_true] at h1 h2 <;>
    exact ⟨le_rfl, le_rfl,
      by simp only [consumeOf, nodeOf, Bool.false_eq_true, if_false, if_true]; linarith,
      by simp only [consumeOf, nodeOf, Bool.false_eq_true, if_false, if_true]; linarith⟩

end MaxRectsBin

theorem binInv_init (w h k : ℚ) : binInv (MaxRectsBin.init w h k) := by
  constructor
  · intro f hf u hu
    simp [MaxRectsBin.init] at hu
  · exact List.Pairwise.nil

/-- The sheet-filling loop keeps the bin invariant and keeps the bin's
used rectangles synchronized with the recorded `placed` footprints; in
particular the placed footprints are pairwise overlap-free. -/
theorem fillLoop_placed_disjoint (cons : Bool) (fuel j : ℕ) (st : FillSt)
    (hk : 0 ≤ st.bin.kerf) (hinv : binInv st.bin)
    (hused : st.bin.usedRects = st.placed.map rectOfPlaced) :
    List.Pairwise
      (fun a b => MaxRectsBin.overlapsB (rectOfPlaced a) (rectOfPlaced b) = false)
      (fillLoop cons fuel j st).placed := by
  obtain ⟨j2, h⟩ := fillLoop_invariant cons
    (fun _ s => 0 ≤ s.bin.kerf ∧ binInv s.bin ∧
      s.bin.usedRects = s.placed.map rectOfPlaced)
    (by intro s j2 hj hg hInv; exact hInv)
    (by
      intro s j2 node bin2 hj hg heq hInv
      obtain ⟨hk2, hinv2, hused2⟩ := hInv
      obtain ⟨c, hc, hplc, hb2⟩ := MaxRectsBin.insert_some_decompose _ _ _ _ _ _ heq
      obtain ⟨hfree, hfits⟩ := MaxRectsBin.mem_candidates_fits hc
      subst hb2
      refine ⟨?_, ?_, ?_⟩
      · dsimp only
        rw [MaxRectsBin.place_kerf]
        exact hk2
      · dsimp only
        exact MaxRectsBin.place_binInv hk2 hfree
          (MaxRectsBin.insideRect_consume_nodeOf hfits) hinv2
      · dsimp only
        rw [MaxRectsBin.place_usedRects, hused2, List.map_append]
        subst hplc
        rfl)
    (by
      intro s j2 bin2 hj hg heq hInv
      have h1 := MaxRectsBin.insert_none_eq s.bin (s.items.getD j2 default).width
        (s.items.getD j2 default).height true (by rw [heq])
      rw [heq] at h1
      have hb2 : bin2 = s.bin := h1
      subst hb2
      exact hInv)
    fuel j st ⟨hk, hinv, hused⟩
  have hp := (h.2.1).2
  rw [h.2.2] at hp
  exact List.pairwise_map.mp hp

theorem footprintsDisjoint_map_visualOf {placed : List PlacedEntry}
    (h : List.Pairwise
      (fun a b => MaxRectsBin.overlapsB (rectOfPlaced a) (rectOfPlaced b) = false)
      placed) :
    footprintsDisjoint (placed.map visualOf) := by
  unfold footprintsDisjoint
  rw [List.pairwise_map]
  exact h

/-- Every visuals list accumulated or produced by the sheet loop has
pairwise overlap-free footprints. -/
theorem packLoop_visuals_disjoint (cfg : Config) (cons : Bool) (hk : 0 ≤ cfg.kerf) :
    ∀ (fuel : ℕ) (items : List Piece) (idx : ℕ) (sheets : List Sheet)
      (warnings : List String) (visuals : List (List Visual)),
      (∀ vs ∈ visuals, footprintsDisjoint vs) →
      ∀ vs ∈ (packLoop cfg cons fuel items idx sheets warnings visuals).visuals,
        footprintsDisjoint vs := by
  intro fuel
  induction fuel with
  | zero =>
    intro items idx sheets warnings visuals hacc vs hvs
    exact hacc vs hvs
  | succ n ih =>
    intro items idx sheets warnings visuals hacc vs hvs
    simp only [packLoop] at hvs
    by_cases hidx : idx < items.length
    · rw [if_pos hidx] at hvs
      have hdisj : footprintsDisjoint
          ((fillLoop cons (items.length - idx) idx
            ⟨items, idx, MaxRectsBin.init cfg.sheetWidth cfg.sheetHeight cfg.kerf,
              [], []⟩).placed.map visualOf) :=
        footprintsDisjoint_map_visualOf
          (fillLoop_placed_disjoint cons (items.length - idx) idx _ hk
            (binInv_init _ _ _) rfl)
      by_cases hz : (fillLoop cons (items.length - idx) idx
          ⟨items, idx, MaxRectsBin.init cfg.sheetWidth cfg.sheetHeight cfg.kerf,
            [], []⟩).placed.length = 0
      · rw [if_pos hz] at hvs
        exact hacc vs hvs
      · rw [if_neg hz] at hvs
        by_cases hgt : (sheets ++ [mkSheet cfg (fillLoop cons (items.length - idx) idx
            ⟨items, idx, MaxRectsBin.init cfg.sheetWidth cfg.sheetHeight cfg.kerf,
              [], []⟩).placed]).length > 200
        · rw [if_pos hgt] at hvs
          rcases List.mem_append.mp hvs with hm | hm
          · exact hacc vs hm
          · rw [List.mem_singleton] at hm
            subst hm
            exact hdisj
        · rw [if_neg hgt] at hvs
          refine ih _ _ _ _ _ ?_ vs hvs
          intro vs2 hvs2
          rcases List.mem_append.mp hvs2 with hm | hm
          · exact hacc vs2 hm
          · rw [List.mem_singleton] at hm
            subst hm
            exact hdisj
    · rw [if_neg hidx] at hvs
      exact hacc vs hvs

/-- C2: the no-overlap invariant of the general packer.  For every input
and either conservative-mode setting, every per-sheet visuals list
produced by `packSheetsGuillotine` records pairwise non-overlapping
placement footprints: the closed-interval overlap test of `_overlaps`
is false for every pair of placements on the same sheet. -/
theorem claim2_no_overlapping_footprints (pieces : List Piece) (cons : Bool) :
    ∀ vs ∈ (Script.packSheetsGuillotine pieces cons).visuals,
      footprintsDisjoint vs := by
  intro vs hvs
  refine packLoop_visuals_disjoint config cons (le_refl 0) _ _ _ _ _ _ ?_ vs hvs
  intro vs2 hvs2
  cases hvs2

set_option maxRecDepth 4000000 in
/-- Witness for C2: a single 10×20 piece on the 48×96 sheet yields one
sheet whose only visual is the rotated footprint at the origin, and the
theorem applies to it. -/
theorem claim2_witness :
    ([⟨0, 0, 20, 10⟩] : List Visual) ∈
      (Script.packSheetsGuillotine [⟨"10", "20", 10, 20, 1, 0⟩] false).visuals ∧
    footprintsDisjoint [⟨(0 : ℚ), 0, 20, 10⟩] :=
  ⟨by with_unfolding_all decide,
   claim2_no_overlapping_footprints [⟨"10", "20", 10, 20, 1, 0⟩] false _
     (by with_unfolding_all decide)⟩

/-! ## C10: the callers' records are not written -/

theorem readRef_append_left {store ext : List Piece} {i : ℕ} (h : i < store.length) :
    readRef (store ++ ext) i = readRef store i := by
  unfold readRef
  rw [List.getD_eq_getElem?_getD, List.getD_eq_getElem?_getD, List.getElem?_append_left h]

theorem readRef_append_right (store ext : List Piece) (k : ℕ) :
    readRef (store ++ ext) (store.length + k) = readRef ext k := by
  unfold readRef
  have h2 : store.length + k - store.length = k := by omega
  rw [List.getD_eq_getElem?_getD, List.getD_eq_getElem?_getD,
    List.getElem?_append_right (Nat.le_add_right _ _), h2]

theorem readRef_replicate {n k : ℕ} {p : Piece} (h : k < n) :
    readRef (List.replicate n p) k = p := by
  unfold readRef
  rw [List.getD_eq_getElem?_getD, List.getElem?_replicate_of_lt h]
  rfl

theorem pushCopiesAux (p : Piece) : ∀ (n : ℕ) (a : List Piece × List ℕ),
    (List.range n).foldl (fun a _ => (a.1 ++ [p], a.2 ++ [a.1.length])) a =
      (a.1 ++ List.replicate n p,
       a.2 ++ (List.range n).map (fun k => a.1.length + k)) := by
  intro n
  induction n with
  | zero => intro a; simp
  | succ m ih =>
    intro a
    rw [List.range_succ, List.foldl_append, ih, List.foldl_cons, List.foldl_nil]
    refine Prod.ext ?_ ?_
    · dsimp only
      rw [List.append_assoc, ← List.replicate_succ']
    · dsimp only
      rw [List.append_assoc]
      congr 1
      rw [List.map_append]
      congr 1
      simp

theorem pushCopies_eq (p : Piece) (acc : List Piece × List ℕ) :
    pushCopies p acc =
      (acc.1 ++ List.replicate p.qty p,
       acc.2 ++ (List.range p.qty).map (fun k => acc.1.length + k)) := by
  unfold pushCopies
  exact pushCopiesAux p p.qty acc

theorem explode_cons (p : Piece) (l : List Piece) :
    explode (p :: l) = List.replicate p.qty p ++ explode l := by
  unfold explode
  rw [List.flatMap_cons]

theorem explodeStoreAux (store : List Piece) :
    ∀ (refs : List ℕ) (acc : List Piece × List ℕ) (ext0 : List Piece),
      (∀ r ∈ refs, r < store.length) →
      acc.1 = store ++ ext0 →
      (∀ i ∈ acc.2, i < acc.1.length) →
      ∃ ext2,
        (refs.foldl (fun a r => pushCopies (readRef a.1 r) a) acc).1
          = acc.1 ++ ext2 ∧
        (∀ i ∈ (refs.foldl (fun a r => pushCopies (readRef a.1 r) a) acc).2,
          i < (refs.foldl (fun a r => pushCopies (readRef a.1 r) a) acc).1.length) ∧
        (refs.foldl (fun a r => pushCopies (readRef a.1 r) a) acc).2.map
            (readRef (refs.foldl (fun a r => pushCopies (readRef a.1 r) a) acc).1)
          = acc.2.map (readRef acc.1) ++ explode (refs.map (readRef store)) := by
  intro refs
  induction refs with
  | nil =>
    intro acc ext0 hr hext hbound
    exact ⟨[], by simp, by simpa using hbound, by simp [explode]⟩
  | cons r rest ih =>
    intro acc ext0 hr hext hbound
    simp only [List.foldl_cons]
    have hrlt : r < store.length := hr r (List.mem_cons_self r rest)
    have hread : readRef acc.1 r = readRef store r := by
      rw [hext]
      exact readRef_append_left hrlt
    rw [hread, pushCopies_eq]
    obtain ⟨ext2, hgrow, hbound2, hmap⟩ := ih
      (acc.1 ++ List.replicate (readRef store r).qty (readRef store r),
       acc.2 ++ (List.range (readRef store r).qty).map (fun k => acc.1.length + k))
      (ext0 ++ List.replicate (readRef store r).qty (readRef store r))
      (fun r2 hr2 => hr r2 (List.mem_cons_of_mem r hr2))
      (by dsimp only; rw [hext, List.append_assoc])
      (by
        dsimp only
        intro i hi
        rcases List.mem_append.mp hi with hi | hi
        · have := hbound i hi
          simp only [List.length_append]
          omega
        · rcases List.mem_map.mp hi with ⟨k, hk, rfl⟩
          have := List.mem_range.mp hk
          simp only [List.length_append, List.length_replicate]
          omega)
    refine ⟨List.replicate (readRef store r).qty (readRef store r) ++ ext2, ?_, hbound2, ?_⟩
    · rw [hgrow]
      dsimp only
      rw [List.append_assoc]
    · rw [hmap]
      dsimp only
      have h1 : acc.2.map
            (readRef (acc.1 ++ List.replicate (readRef store r).qty (readRef store r)))
          = acc.2.map (readRef acc.1) :=
        List.map_congr_left (fun i hi => readRef_append_left (hbound i hi))
      have h2 : ((List.range (readRef store r).qty).map (fun k => acc.1.length + k)).map
            (readRef (acc.1 ++ List.replicate (readRef store r).qty (readRef store r)))
          = List.replicate (readRef store r).qty (readRef store r) := by
        rw [List.map_map]
        have hc : ∀ k ∈ List.range (readRef store r).qty,
            (readRef (acc.1 ++ List.replicate (readRef store r).qty (readRef store r)) ∘
              fun k => acc.1.length + k) k = readRef store r := by
          intro k hk
          dsimp only [Function.comp]
          rw [readRef_append_right, readRef_replicate (List.mem_range.mp hk)]
        rw [List.map_congr_left hc, List.map_const', List.length_range]
      rw [List.map_append, h1, h2, List.map_cons, explode_cons, List.append_assoc]

theorem explodeStore_spec (store : List Piece) (refs : List ℕ)
    (hr : ∀ r ∈ refs, r < store.length) :
    ∃ ext, (explodeStore store refs).1 = store ++ ext ∧
      (explodeStore store refs).2.map (readRef (explodeStore store refs).1)
        = explode (refs.map (readRef store)) := by
  obtain ⟨ext2, hgrow, _, hmap⟩ :=
    explodeStoreAux store refs (store, []) [] hr (by simp) (by simp)
  exact ⟨ext2, hgrow, by simpa using hmap⟩

theorem stripAllocAux (cw tol : ℚ) (store : List Piece) :
    ∀ (refs : List ℕ) (acc : List Piece × List ℕ × List ℕ) (ext0 : List Piece),
      (∀ r ∈ refs, r < store.length) →
      acc.1 = store ++ ext0 →
      (∀ i ∈ acc.2.1, i < acc.1.length) →
      (∀ i ∈ acc.2.2, i < acc.1.length) →
      ∃ ext2,
        (refs.foldl
            (fun acc r =>
              let p := readRef acc.1 r
              if decide (|p.width - cw| ≤ tol) then
                let a2 := pushCopies p (acc.1, acc.2.1)
                (a2.1, a2.2, acc.2.2)
              else
                (acc.1 ++ [p], acc.2.1, acc.2.2 ++ [acc.1.length])) acc).1
          = acc.1 ++ ext2 ∧
        (refs.foldl
            (fun acc r =>
              let p := readRef acc.1 r
              if decide (|p.width - cw| ≤ tol) then
                let a2 := pushCopies p (acc.1, acc.2.1)
                (a2.1, a2.2, acc.2.2)
              else
                (acc.1 ++ [p], acc.2.1, acc.2.2 ++ [acc.1.length])) acc).2.1.map
            (readRef (refs.foldl
              (fun acc r =>
                let p := readRef acc.1 r
                if decide (|p.width - cw| ≤ tol) then
                  let a2 := pushCopies p (acc.1, acc.2.1)
                  (a2.1, a2.2, acc.2.2)
                else
                  (acc.1 ++ [p], acc.2.1, acc.2.2 ++ [acc.1.length])) acc).1)
          = acc.2.1.map (readRef acc.1)
            ++ (refs.map (readRef store)).flatMap
                (fun p => if decide (|p.width - cw| ≤ tol) then
                  List.replicate p.qty p else []) ∧
        (refs.foldl
            (fun acc r =>
              let p := readRef acc.1 r
              if decide (|p.width - cw| ≤ tol) then
                let a2 := pushCopies p (acc.1, acc.2.1)
                (a2.1, a2.2, acc.2.2)
              else
                (acc.1 ++ [p], acc.2.1, acc.2.2 ++ [acc.1.length])) acc).2.2.map
            (readRef (refs.foldl
              (fun acc r =>
                let p := readRef acc.1 r
                if decide (|p.width - cw| ≤ tol) then
                  let a2 := pushCopies p (acc.1, acc.2.1)
                  (a2.1, a2.2, acc.2.2)
                else
                  (acc.1 ++ [p], acc.2.1, acc.2.2 ++ [acc.1.length])) acc).1)
          = acc.2.2.map (readRef acc.1)
            ++ (refs.map (readRef store)).filter
                (fun p => !decide (|p.width - cw| ≤ tol)) := by
  intro refs
  induction refs with
  | nil =>
    intro acc ext0 hr hext hb1 hb2
    exact ⟨[], by simp, by simp, by simp⟩
  | cons r rest ih =>
    intro acc ext0 hr hext hb1 hb2
    simp only [List.foldl_cons]
    have hrlt : r < store.length := hr r (List.mem_cons_self r rest)
    have hread : readRef acc.1 r = readRef store r := by
      rw [hext]
      exact readRef_append_left hrlt
    rw [hread]
    by_cases hcond : |(readRef store r).width - cw| ≤ tol
    · rw [if_pos (by simpa using hcond), pushCopies_eq]
      dsimp only
      obtain ⟨ext2, hgrow, hm1, hm2⟩ := ih
        (acc.1 ++ List.replicate (readRef store r).qty (readRef store r),
         acc.2.1 ++ (List.range (readRef store r).qty).map (fun k => acc.1.length + k),
         acc.2.2)
        (ext0 ++ List.replicate (readRef store r).qty (readRef store r))
        (fun r2 hr2 => hr r2 (List.mem_cons_of_mem r hr2))
        (by dsimp only; rw [hext, List.append_assoc])
        (by
          dsimp only
          intro i hi
          rcases List.mem_append.mp hi with hi | hi
          · have := hb1 i hi
            simp only [List.length_append]
            omega
          · rcases List.mem_map.mp hi with ⟨k, hk, rfl⟩
            have := List.mem_range.mp hk
            simp only [List.length_append, List.length_replicate]
            omega)
        (by
          dsimp only
          intro i hi
          have := hb2 i hi
          simp only [List.length_append]
          omega)
      refine ⟨List.replicate (readRef store r).qty (readRef store r) ++ ext2, ?_, ?_, ?_⟩
      · rw [hgrow]
        dsimp only
        rw [List.append_assoc]
      · rw [hm1]
        dsimp only
        have h1 : acc.2.1.map
              (readRef (acc.1 ++ List.replicate (readRef store r).qty (readRef store r)))
            = acc.2.1.map (readRef acc.1) :=
          List.map_congr_left (fun i hi => readRef_append_left (hb1 i hi))
        have h2 : ((List.range (readRef store r).qty).map (fun k => acc.1.length + k)).map
              (readRef (acc.1 ++ List.replicate (readRef store r).qty (readRef store r)))
            = List.replicate (readRef store r).qty (readRef store r) := by
          rw [List.map_map]
          have hc : ∀ k ∈ List.range (readRef store r).qty,
              (readRef (acc.1 ++ List.replicate (readRef store r).qty (readRef store r)) ∘
                fun k => acc.1.length + k) k = readRef store r := by
            intro k hk
            dsimp only [Function.comp]
            rw [readRef_append_right, readRef_replicate (List.mem_range.mp hk)]
          rw [List.map_congr_left hc, List.map_const', List.length_range]
        rw [List.map_append, h1, h2, List.map_cons, List.flatMap_cons,
          if_pos (by simpa using hcond), List.append_assoc]
      · rw [hm2]
        dsimp only
        have h1 : acc.2.2.map
              (readRef (acc.1 ++ List.replicate (readRef store r).qty (readRef store r)))
            = acc.2.2.map (readRef acc.1) :=
          List.map_congr_left (fun i hi => readRef_append_left (hb2 i hi))
        rw [h1, List.map_cons, List.filter_cons]
        have : (!decide (|(readRef store r).width - cw| ≤ tol)) = false := by
          simpa using hcond
        rw [this]
        simp only [Bool.false_eq_true, if_false]
    · rw [if_neg (by simpa using hcond)]
      obtain ⟨ext2, hgrow, hm1, hm2⟩ := ih
        (acc.1 ++ [readRef store r], acc.2.1, acc.2.2 ++ [acc.1.length])
        (ext0 ++ [readRef store r])
        (fun r2 hr2 => hr r2 (List.mem_cons_of_mem r hr2))
        (by dsimp only; rw [hext, List.append_assoc])
        (by
          dsimp only
          intro i hi
          have := hb1 i hi
          simp only [List.length_append]
          omega)
        (by
          dsimp only
          intro i hi
          rcases List.mem_append.mp hi with hi | hi
          · have := hb2 i hi
            simp only [List.length_append]
            omega
          · rw [List.mem_singleton] at hi
            subst hi
            simp only [List.length_append, List.length_cons, List.length_nil]
            omega)
      refine ⟨[readRef store r] ++ ext2, ?_, ?_, ?_⟩
      · rw [hgrow]
        dsimp only
        rw [List.append_assoc]
      · rw [hm1]
        dsimp only
        have h1 : acc.2.1.map (readRef (acc.1 ++ [readRef store r]))
            = acc.2.1.map (readRef acc.1) :=
          List.map_congr_left (fun i hi => readRef_append_left (hb1 i hi))
        rw [h1, List.map_cons, List.flatMap_cons, if_neg (by simpa using hcond),
          List.nil_append]
      · rw [hm2]
        dsimp only
        have h1 : acc.2.2.map (readRef (acc.1 ++ [readRef store r]))
            = acc.2.2.map (readRef acc.1) :=
          List.map_congr_left (fun i hi => readRef_append_left (hb2 i hi))
        have h2 : readRef (acc.1 ++ [readRef store r]) acc.1.length = readRef store r := by
          have := readRef_append_right acc.1 [readRef store r] 0
          simpa using this
        rw [List.map_cons, List.filter_cons]
        have : (!decide (|(readRef store r).width - cw| ≤ tol)) = true := by
          simpa using hcond
        rw [this, if_pos rfl, List.map_append, h1]
        simp only [List.map_cons, List.map_nil, h2]
        rw [List.append_assoc]
        rfl

theorem stripAllocStore_spec (cw tol : ℚ) (store : List Piece) (refs : List ℕ)
    (hr : ∀ r ∈ refs, r < store.length) :
    ∃ ext, (stripAllocStore cw tol store refs).1 = store ++ ext ∧
      (stripAllocStore cw tol store refs).2.1.map
          (readRef (stripAllocStore cw tol store refs).1)
        = (refs.map (readRef store)).flatMap
            (fun p => if decide (|p.width - cw| ≤ tol) then
              List.replicate p.qty p else []) ∧
      (stripAllocStore cw tol store refs).2.2.map
          (readRef (stripAllocStore cw tol store refs).1)
        = (refs.map (readRef store)).filter
            (fun p => !decide (|p.width - cw| ≤ tol)) := by
  obtain ⟨ext2, hgrow, hm1, hm2⟩ :=
    stripAllocAux cw tol store refs (store, [], []) [] hr (by simp) (by simp) (by simp)
  exact ⟨ext2, hgrow, hm1, hm2⟩

/-- C10: in the heap model, neither packer writes the caller's piece
records. The copy loops are the only store operations of either packer;
every cell of the caller's store reads back unchanged after either run,
and each run computes exactly the pure packer applied to the values read
from the caller's records. -/
theorem claim10_inputs_not_mutated (store : List Piece) (refs : List ℕ) (cons : Bool)
    (href : ∀ r ∈ refs, r < store.length) :
    ((∀ i < store.length,
        readRef (packGuillotineStore store refs cons).2 i = readRef store i) ∧
      (packGuillotineStore store refs cons).1 =
        Script.packSheetsGuillotine (List.map (readRef store) refs) cons) ∧
    ((∀ i < store.length,
        readRef (packStripStore config store refs cons).2 i = readRef store i) ∧
      (packStripStore config store refs cons).1 =
        Part001.packSheetsStripMode config (List.map (readRef store) refs) cons) := by
  obtain ⟨ext, hg, hm⟩ := explodeStore_spec store refs href
  refine ⟨⟨?_, ?_⟩, ?_, ?_⟩
  · intro i hi
    show readRef (explodeStore store refs).1 i = readRef store i
    rw [hg]
    exact readRef_append_left hi
  · show packLoop config cons
        (sortPieces (List.map (readRef (explodeStore store refs).1)
          (explodeStore store refs).2)).length
        (sortPieces (List.map (readRef (explodeStore store refs).1)
          (explodeStore store refs).2)) 0 [] [] []
      = Script.packSheetsGuillotine (List.map (readRef store) refs) cons
    have hm2 : List.map (readRef (explodeStore store refs).1) (explodeStore store refs).2
        = explode (List.map (readRef store) refs) := hm
    rw [hm2]
    rfl
  · intro i hi
    unfold packStripStore
    dsimp only
    split
    · rfl
    · split
      · rfl
      · obtain ⟨ext2, hg2, -, -⟩ := stripAllocStore_spec _
          (config.stripWidthTolerance + 1/1000000) store refs href
        have hsnd : ∀ (o1 o2 : Option Part001.StripResult) (c : Prop) [Decidable c]
            (s1 : List Piece),
            ((if c then (o1, s1) else (o2, s1)) :
              Option Part001.StripResult × List Piece).2 = s1 := by
          intro o1 o2 c hc s1
          split <;> rfl
        rw [hsnd]
        rw [hg2]
        exact readRef_append_left hi
  · unfold packStripStore Part001.packSheetsStripMode
    dsimp only
    split
    · rfl
    · split
      · rfl
      · obtain ⟨ext2, -, hm1, hm2⟩ := stripAllocStore_spec _
          (config.stripWidthTolerance + 1/1000000) store refs href
        rw [hm1, hm2]
        have hfst : ∀ (o1 o2 : Option Part001.StripResult) (c : Prop) [Decidable c]
            (s1 : List Piece),
            ((if c then (o1, s1) else (o2, s1)) :
              Option Part001.StripResult × List Piece).1 = if c then o1 else o2 := by
          intro o1 o2 c hc s1
          split <;> rfl
        rw [hfst]

/-! ## C4: when the strip pass runs (amended gate) -/

namespace Part001

theorem jsRound_abs (x : ℚ) : |x - (jsRound x : ℚ)| ≤ 1/2 := by
  unfold jsRound
  have h1 : ((⌊x + 1/2⌋ : ℤ) : ℚ) ≤ x + 1/2 := Int.floor_le _
  have h2 : x + 1/2 < ((⌊x + 1/2⌋ : ℤ) : ℚ) + 1 := Int.lt_floor_add_one _
  rw [abs_le]
  constructor <;> linarith

theorem toFixed4_abs (q : ℚ) : |q - toFixed4 q| ≤ 1/20000 := by
  unfold toFixed4
  split
  · have h := jsRound_abs (-q * 10000)
    rw [abs_le] at h ⊢
    constructor <;> linarith
  · have h := jsRound_abs (q * 10000)
    rw [abs_le] at h ⊢
    constructor <;> linarith

/-- A piece's width is within the strip filter's tolerance of its own
bucket key: half the rounding tolerance plus the four-decimal rounding
error is under `tol + 1e-6`. -/
theorem bucketKey_close (w : ℚ) :
    |w - bucketKey config w| ≤ config.stripWidthTolerance + 1/1000000 := by
  have h1 : |w - bucketVal config w| ≤ 1/64 := by
    unfold bucketVal
    have h := jsRound_abs (w / config.stripWidthTolerance)
    have ht : config.stripWidthTolerance = (1/32 : ℚ) := rfl
    rw [ht] at h ⊢
    rw [abs_le] at h ⊢
    constructor <;> linarith [h.1, h.2]
  have h2 := toFixed4_abs (bucketVal config w)
  unfold bucketKey
  have h3 := abs_sub_le w (bucketVal config w) (toFixed4 (bucketVal config w))
  have ht : config.stripWidthTolerance = (1/32 : ℚ) := rfl
  rw [ht]
  linarith [h1, h2, h3]

theorem addCount_mem (k : ℚ) (q : ℕ) :
    ∀ (m : List (ℚ × ℕ)), ∀ kc ∈ addCount k q m,
      kc ∈ m ∨ (kc.1 = k ∧ kc.2 = q) ∨ ∃ c0, (k, c0) ∈ m ∧ kc = (k, c0 + q) := by
  intro m
  induction m with
  | nil =>
    intro kc hkc
    rw [addCount, List.mem_singleton] at hkc
    subst hkc
    exact Or.inr (Or.inl ⟨rfl, rfl⟩)
  | cons kc0 rest ih =>
    intro kc hkc
    obtain ⟨k2, c⟩ := kc0
    rw [addCount] at hkc
    by_cases hk : k2 = k
    · rw [if_pos hk] at hkc
      subst hk
      rcases List.mem_cons.mp hkc with h1 | h1
      · subst h1
        exact Or.inr (Or.inr ⟨c, List.mem_cons_self _ _, rfl⟩)
      · exact Or.inl (List.mem_cons_of_mem _ h1)
    · rw [if_neg hk] at hkc
      rcases List.mem_cons.mp hkc with h1 | h1
      · exact Or.inl (h1 ▸ List.mem_cons_self _ _)
      · rcases ih kc h1 with h | h | ⟨c0, hc0, hkceq⟩
        · exact Or.inl (List.mem_cons_of_mem _ h)
        · exact Or.inr (Or.inl h)
        · exact Or.inr (Or.inr ⟨c0, List.mem_cons_of_mem _ hc0, hkceq⟩)

/-- Every positive count in the width-bucket map is backed by an input
piece of that bucket with positive quantity. -/
theorem countsFold_pos (cfg : Config) (all : List Piece) :
    ∀ (l : List Piece) (m : List (ℚ × ℕ)),
      (∀ p ∈ l, p ∈ all) →
      (∀ kc ∈ m, 0 < kc.2 →
        ∃ p ∈ all, bucketKey cfg p.width = kc.1 ∧ 0 < p.qty) →
      ∀ kc ∈ l.foldl (fun m p => addCount (bucketKey cfg p.width) p.qty m) m,
        0 < kc.2 →
        ∃ p ∈ all, bucketKey cfg p.width = kc.1 ∧ 0 < p.qty := by
  intro l
  induction l with
  | nil =>
    intro m hl hm kc hkc hpos
    exact hm kc hkc hpos
  | cons p0 rest ih =>
    intro m hl hm kc hkc hpos
    simp only [List.foldl_cons] at hkc
    refine ih (addCount (bucketKey cfg p0.width) p0.qty m)
      (fun p hp => hl p (List.mem_cons_of_mem _ hp)) ?_ kc hkc hpos
    intro kc2 hkc2 hpos2
    rcases addCount_mem _ _ m kc2 hkc2 with h | ⟨h1, h2⟩ | ⟨c0, hc0, hkceq⟩
    · exact hm kc2 h hpos2
    · refine ⟨p0, hl p0 (List.mem_cons_self _ _), h1.symm, ?_⟩
      rw [h2] at hpos2
      exact hpos2
    · subst hkceq
      by_cases hc0pos : 0 < c0
      · obtain ⟨p3, hp3, hbk, hq⟩ := hm (bucketKey cfg p0.width, c0) hc0 hc0pos
        exact ⟨p3, hp3, by simpa using hbk, hq⟩
      · have hq : 0 < p0.qty := by
          simp only at hpos2
          omega
        exact ⟨p0, hl p0 (List.mem_cons_self _ _), rfl, hq⟩

/-- The best-bucket scan returns its initial state or a map entry. -/
theorem bestFold_cases :
    ∀ (counts : List (ℚ × ℕ)) (b : Option ℚ × ℕ),
      counts.foldl (fun (b : Option ℚ × ℕ) kc =>
        if kc.2 > b.2 then (some kc.1, kc.2) else b) b = b ∨
      ∃ kc ∈ counts,
        counts.foldl (fun (b : Option ℚ × ℕ) kc =>
          if kc.2 > b.2 then (some kc.1, kc.2) else b) b = (some kc.1, kc.2) := by
  intro counts
  induction counts with
  | nil => intro b; exact Or.inl rfl
  | cons kc0 rest ih =>
    intro b
    simp only [List.foldl_cons]
    by_cases h : kc0.2 > b.2
    · rw [if_pos h]
      rcases ih (some kc0.1, kc0.2) with h1 | ⟨kc, hkc, h1⟩
      · exact Or.inr ⟨kc0, List.mem_cons_self _ _, h1⟩
      · exact Or.inr ⟨kc, List.mem_cons_of_mem _ hkc, h1⟩
    · rw [if_neg h]
      rcases ih b with h1 | ⟨kc, hkc, h1⟩
      · exact Or.inl h1
      · exact Or.inr ⟨kc, List.mem_cons_of_mem _ hkc, h1⟩

/-- When a common width was detected and the ratio is at least 0.7,
some input piece lies in the winning bucket with positive quantity. -/
theorem strip_bucket_witness (pieces : List Piece) (c : ℚ)
    (hcw : (detectCommonWidth config pieces).commonWidth = some c)
    (hrat : 7/10 ≤ (detectCommonWidth config pieces).ratio) :
    ∃ p ∈ pieces, bucketKey config p.width = c ∧ 0 < p.qty := by
  have h1 : ((pieces.foldl
      (fun m p => addCount (bucketKey config p.width) p.qty m) []).foldl
        (fun (b : Option ℚ × ℕ) kc =>
          if kc.2 > b.2 then (some kc.1, kc.2) else b) (none, 0)).1 = some c := hcw
  have h2 : 7/10 ≤
      (if (pieces.foldl (fun (a : ℕ) p => a + p.qty) 0) = 0 then (0 : ℚ)
       else (((pieces.foldl
          (fun m p => addCount (bucketKey config p.width) p.qty m) []).foldl
            (fun (b : Option ℚ × ℕ) kc =>
              if kc.2 > b.2 then (some kc.1, kc.2) else b) (none, 0)).2 : ℚ) /
          ((pieces.foldl (fun (a : ℕ) p => a + p.qty) 0 : ℕ) : ℚ)) := hrat
  have hbpos : 0 < ((pieces.foldl
      (fun m p => addCount (bucketKey config p.width) p.qty m) []).foldl
        (fun (b : Option ℚ × ℕ) kc =>
          if kc.2 > b.2 then (some kc.1, kc.2) else b) (none, 0)).2 := by
    by_contra hb
    have hb0 : ((pieces.foldl
        (fun m p => addCount (bucketKey config p.width) p.qty m) []).foldl
          (fun (b : Option ℚ × ℕ) kc =>
            if kc.2 > b.2 then (some kc.1, kc.2) else b) (none, 0)).2 = 0 := by
      omega
    rw [hb0] at h2
    by_cases ht0 : (pieces.foldl (fun (a : ℕ) p => a + p.qty) 0) = 0
    · rw [if_pos ht0] at h2
      linarith
    · rw [if_neg ht0] at h2
      rw [Nat.cast_zero, zero_div] at h2
      linarith
  rcases bestFold_cases
      (pieces.foldl (fun m p => addCount (bucketKey config p.width) p.qty m) [])
      (none, 0) with hc1 | ⟨kc, hkc, hc1⟩
  · rw [hc1] at h1
    simp at h1
  · rw [hc1] at h1 hbpos
    simp only [Option.some.injEq] at h1
    simp only at hbpos
    obtain ⟨p, hp, hbk, hq⟩ := countsFold_pos config pieces pieces []
      (fun p hp => hp) (by intro kc2 hkc2 hpos2; cases hkc2) kc hkc hbpos
    exact ⟨p, hp, hbk.trans h1, hq⟩

end Part001

/-- C4 (amended): the strip pass runs if and only if the strip-mode
feature is enabled, a common width was detected whose parsed value is
nonzero, and the detected ratio is at least 0.7. The amendment adds the
nonzero condition: the `!commonWidth` truthiness test also rejects a
detected common width of 0, and the claim's separate non-empty-bucket
condition is implied (a detected width at ratio ≥ 0.7 forces a bucket
piece with positive quantity, whose width lies within the strip filter
tolerance of the bucket key). -/
theorem claim4_amended_strip_gate (pieces : List Piece) (cons : Bool) :
    Part001.packSheetsStripMode config pieces cons ≠ none ↔
      config.stripModeAuto = true ∧
      (∃ c, (Part001.detectCommonWidth config pieces).commonWidth = some c ∧ c ≠ 0) ∧
      7/10 ≤ (Part001.detectCommonWidth config pieces).ratio := by
  unfold Part001.packSheetsStripMode
  dsimp only
  split
  · rename_i hnone
    simp [hnone]
  · rename_i c heq
    by_cases hc0 : c = 0
    · subst hc0
      rw [if_pos rfl]
      constructor
      · intro h
        exact absurd rfl h
      · rintro ⟨-, ⟨c2, hc2, hc2ne⟩, -⟩
        rw [heq, Option.some.injEq] at hc2
        exact absurd hc2.symm hc2ne
    · rw [if_neg hc0]
      split
      · rename_i hcond
        rw [Bool.or_eq_true, Bool.or_eq_true] at hcond
        constructor
        · intro h
          exact absurd rfl h
        · rintro ⟨-, ⟨c2, hc2, hc2ne⟩, hrat⟩
          rcases hcond with (h | h) | h
          · rw [show (!config.stripModeAuto) = false from rfl] at h
            exact (Bool.false_ne_true h).elim
          · have hlen := of_decide_eq_true h
            obtain ⟨p, hp, hbk, hq⟩ :=
              Part001.strip_bucket_witness pieces c heq hrat
            have hmem : p ∈ pieces.flatMap fun p =>
                if decide (|p.width - c| ≤ config.stripWidthTolerance + 1/1000000) then
                  List.replicate p.qty p else [] := by
              refine List.mem_flatMap.mpr ⟨p, hp, ?_⟩
              rw [if_pos]
              · exact List.mem_replicate.mpr ⟨Nat.pos_iff_ne_zero.mp hq, rfl⟩
              · refine decide_eq_true ?_
                have := Part001.bucketKey_close p.width
                rw [hbk] at this
                exact this
            rw [List.length_eq_zero] at hlen
            rw [hlen] at hmem
            cases hmem
          · exact absurd hrat (not_le.mpr (of_decide_eq_true h))
      · rename_i hcond
        rw [Bool.or_eq_true, Bool.or_eq_true] at hcond
        push_neg at hcond
        constructor
        · intro hsome
          refine ⟨rfl, ⟨c, heq, hc0⟩, ?_⟩
          have h3 := hcond.2
          have hnl : ¬ ((Part001.detectCommonWidth config pieces).ratio < 7/10) := by
            intro hlt
            exact h3 (decide_eq_true hlt)
          linarith [not_lt.mp hnl]
        · intro hrhs
          simp

/-- Witness for C10: the example piece as the caller's single record,
packed through both heap-model packers. -/
theorem claim10_witness :
    (∀ r ∈ ([0] : List ℕ), r < ([examplePiece] : List Piece).length) ∧
    (((∀ i < ([examplePiece] : List Piece).length,
        readRef (packGuillotineStore [examplePiece] [0] false).2 i
          = readRef [examplePiece] i) ∧
      (packGuillotineStore [examplePiece] [0] false).1 =
        Script.packSheetsGuillotine (List.map (readRef [examplePiece]) [0]) false) ∧
     ((∀ i < ([examplePiece] : List Piece).length,
        readRef (packStripStore config [examplePiece] [0] false).2 i
          = readRef [examplePiece] i) ∧
      (packStripStore config [examplePiece] [0] false).1 =
        Part001.packSheetsStripMode config
          (List.map (readRef [examplePiece]) [0]) false)) :=
  ⟨by decide, claim10_inputs_not_mutated [examplePiece] [0] false (by decide)⟩

/-! ## C6: the conservative cap (amended to label pairs) -/

theorem append_mark_inj : ∀ (l1 m1 l2 m2 : List Char),
    '×' ∉ l1 → '×' ∉ l2 → l1 ++ '×' :: m1 = l2 ++ '×' :: m2 → l1 = l2 ∧ m1 = m2 := by
  intro l1
  induction l1 with
  | nil =>
    intro m1 l2 m2 h1 h2 heq
    cases l2 with
    | nil => simpa using heq
    | cons c l2' =>
      simp only [List.nil_append, List.cons_append, List.cons.injEq] at heq
      apply absurd _ h2
      rw [← heq.1]
      exact List.mem_cons_self _ _
  | cons c1 l1' ih =>
    intro m1 l2 m2 h1 h2 heq
    cases l2 with
    | nil =>
      simp only [List.nil_append, List.cons_append, List.cons.injEq] at heq
      apply absurd _ h1
      rw [heq.1]
      exact List.mem_cons_self _ _
    | cons c2 l2' =>
      simp only [List.cons_append, List.cons.injEq] at heq
      obtain ⟨hc, heq2⟩ := heq
      obtain ⟨ha, hb⟩ := ih m1 l2' m2
        (fun h => h1 (List.mem_cons_of_mem _ h))
        (fun h => h2 (List.mem_cons_of_mem _ h)) heq2
      exact ⟨by rw [hc, ha], hb⟩

/-- The `ow ++ "×" ++ oh` key format is injective on separator-free
labels. -/
theorem key_inj {a b c d : String} (ha : goodLabel a) (hc : goodLabel c)
    (h : a ++ "×" ++ b = c ++ "×" ++ d) : a = c ∧ b = d := by
  have hdata : a.data ++ '×' :: b.data = c.data ++ '×' :: d.data := by
    have h2 := congrArg String.data h
    simp only [String.data_append] at h2
    simpa using h2
  obtain ⟨h1, h2⟩ := append_mark_inj a.data b.data c.data d.data ha hc hdata
  exact ⟨String.ext h1, String.ext h2⟩

theorem labPairEquiv_symm {a b : String × String} (h : labPairEquiv a b = true) :
    labPairEquiv b a = true := by
  unfold labPairEquiv at *
  rw [Bool.or_eq_true, decide_eq_true_eq, decide_eq_true_eq] at h ⊢
  rcases h with h | h
  · exact Or.inl h.symm
  · exact Or.inr ⟨h.2.symm, h.1.symm⟩

theorem labPairEquiv_trans {a b c : String × String}
    (h1 : labPairEquiv a b = true) (h2 : labPairEquiv b c = true) :
    labPairEquiv a c = true := by
  unfold labPairEquiv at *
  rw [Bool.or_eq_true, decide_eq_true_eq, decide_eq_true_eq] at h1 h2 ⊢
  obtain ⟨a1, a2⟩ := a
  obtain ⟨b1, b2⟩ := b
  obtain ⟨c1, c2⟩ := c
  simp only [Prod.mk.injEq] at h1 h2 ⊢
  rcases h1 with ⟨e1, e2⟩ | ⟨e1, e2⟩ <;> rcases h2 with ⟨f1, f2⟩ | ⟨f1, f2⟩ <;>
    subst e1 <;> subst e2 <;> subst f1 <;> subst f2 <;> simp

theorem countP_lt {α : Type} (p q : α → Bool) :
    ∀ (l : List α), (∀ a ∈ l, q a = true → p a = true) →
      ∀ r ∈ l, p r = true → q r = false →
      l.countP q < l.countP p := by
  intro l
  induction l with
  | nil => intro hmono r hr; cases hr
  | cons a rest ih =>
    intro hmono r hr hp hq
    rw [List.countP_cons, List.countP_cons]
    rcases List.mem_cons.mp hr with h1 | h1
    · subst h1
      rw [hp, hq]
      have hle := List.countP_mono_left
        (l := rest) (p := q) (q := p)
        (fun a2 ha2 hq2 => hmono a2 (List.mem_cons_of_mem _ ha2) hq2)
      simp only [if_pos, Bool.false_eq_true, if_false]
      omega
    · have hlt := ih (fun a2 ha2 hq2 => hmono a2 (List.mem_cons_of_mem _ ha2) hq2) r h1 hp hq
      by_cases hqa : q a = true
      · rw [hqa, hmono a (List.mem_cons_self _ _) hqa]
        omega
      · rw [Bool.not_eq_true] at hqa
        rw [hqa]
        simp only [Bool.false_eq_true, if_false]
        by_cases hpa : p a = true
        · rw [hpa]
          simp only [if_pos]
          omega
        · rw [Bool.not_eq_true] at hpa
          rw [hpa]
          simp only [Bool.false_eq_true, if_false]
          omega

/-- The class-count scan is bounded by the representatives not yet
covered by the `seen` list. -/
theorem countClassesByAux_le {α : Type} (E : α → α → Bool)
    (hsymm : ∀ a b, E a b = true → E b a = true)
    (htrans : ∀ a b c, E a b = true → E b c = true → E a c = true)
    (reps : List α) :
    ∀ (l : List α) (seen : List α),
      (∀ x ∈ l, ∃ r ∈ reps, E x r = true) →
      countClassesByAux E seen l ≤
        reps.countP (fun r => !seen.any (fun y => E r y)) := by
  intro l
  induction l with
  | nil =>
    intro seen hcov
    rw [countClassesByAux]
    exact Nat.zero_le _
  | cons x xs ih =>
    intro seen hcov
    rw [countClassesByAux]
    by_cases hx : seen.any (fun y => E x y) = true
    · rw [if_pos hx]
      exact ih seen (fun z hz => hcov z (List.mem_cons_of_mem _ hz))
    · rw [if_neg hx]
      obtain ⟨r, hr, hxr⟩ := hcov x (List.mem_cons_self _ _)
      have hany : seen.any (fun y => E r y) = false := by
        by_contra hc
        have hc2 : seen.any (fun y => E r y) = true := by
          revert hc
          cases seen.any (fun y => E r y) <;> simp
        rcases List.any_eq_true.mp hc2 with ⟨y, hy, hry⟩
        exact hx (List.any_eq_true.mpr ⟨y, hy, htrans x r y hxr hry⟩)
      have hrfree : (!seen.any (fun y => E r y)) = true := by
        rw [hany]
        rfl
      have hrdead : (!(x :: seen).any (fun y => E r y)) = false := by
        have hc2 : (x :: seen).any (fun y => E r y) = true :=
          List.any_eq_true.mpr ⟨x, List.mem_cons_self _ _, hsymm x r hxr⟩
        rw [hc2]
        rfl
      have hstep := ih (x :: seen) (fun z hz => hcov z (List.mem_cons_of_mem _ hz))
      have hmono : ∀ r2 ∈ reps,
          (!(x :: seen).any (fun y => E r2 y)) = true →
          (!seen.any (fun y => E r2 y)) = true := by
        intro r2 hr2 h
        by_contra hc
        have hseen : seen.any (fun y => E r2 y) = true := by
          revert hc
          cases seen.any (fun y => E r2 y) <;> simp
        have hcons : (x :: seen).any (fun y => E r2 y) = true := by
          rcases List.any_eq_true.mp hseen with ⟨y, hy, hy2⟩
          exact List.any_eq_true.mpr ⟨y, List.mem_cons_of_mem _ hy, hy2⟩
        rw [hcons] at h
        simp at h
      have hdrop := countP_lt (fun r2 => !seen.any (fun y => E r2 y))
        (fun r2 => !(x :: seen).any (fun y => E r2 y)) reps hmono r hr hrfree hrdead
      omega

theorem mem_insertSorted (x : Piece) :
    ∀ (l : List Piece), ∀ y ∈ insertSorted x l, y = x ∨ y ∈ l := by
  intro l
  induction l with
  | nil =>
    intro y hy
    rw [insertSorted, List.mem_singleton] at hy
    exact Or.inl hy
  | cons z zs ih =>
    intro y hy
    rw [insertSorted] at hy
    by_cases hs : sortKeyGt x z = true
    · rw [if_pos hs] at hy
      rcases List.mem_cons.mp hy with h | h
      · exact Or.inl h
      · exact Or.inr h
    · rw [if_neg hs] at hy
      rcases List.mem_cons.mp hy with h | h
      · exact Or.inr (h ▸ List.mem_cons_self _ _)
      · rcases ih y h with h1 | h1
        · exact Or.inl h1
        · exact Or.inr (List.mem_cons_of_mem _ h1)

theorem mem_sortPieces :
    ∀ (l : List Piece) (acc : List Piece),
      ∀ y ∈ l.foldl (fun acc x => insertSorted x acc) acc, y ∈ acc ∨ y ∈ l := by
  intro l
  induction l with
  | nil => intro acc y hy; exact Or.inl hy
  | cons z zs ih =>
    intro acc y hy
    simp only [List.foldl_cons] at hy
    rcases ih (insertSorted z acc) y hy with h | h
    · rcases mem_insertSorted z acc y h with h1 | h1
      · exact Or.inr (h1 ▸ List.mem_cons_self _ _)
      · exact Or.inl h1
    · exact Or.inr (List.mem_cons_of_mem _ h)

theorem mem_explode : ∀ (l : List Piece), ∀ x ∈ explode l, x ∈ l := by
  intro l x hx
  rcases List.mem_flatMap.mp hx with ⟨p, hp, hrep⟩
  rw [List.eq_of_mem_replicate hrep]
  exact hp

theorem getD_mem_or (l : List Piece) (n : ℕ) :
    l.getD n default ∈ l ∨ l.getD n default = default := by
  by_cases h : n < l.length
  · left
    rw [List.getD_eq_getElem?_getD, List.getElem?_eq_getElem h]
    exact List.getElem_mem h
  · right
    rw [List.getD_eq_getElem?_getD, List.getElem?_eq_none (by omega)]
    rfl

theorem mem_swapConsume (items : List Piece) (j i : ℕ) :
    ∀ x ∈ swapConsume items j i, x ∈ items ∨ x = default := by
  intro x hx
  unfold swapConsume at hx
  rcases List.mem_or_eq_of_mem_set hx with h1 | h1
  · rcases List.mem_or_eq_of_mem_set h1 with h2 | h2
    · exact Or.inl h2
    · rcases getD_mem_or items i with h3 | h3
      · exact Or.inl (h2 ▸ h3)
      · exact Or.inr (h2.trans h3)
  · rcases getD_mem_or items j with h3 | h3
    · exact Or.inl (h1 ▸ h3)
    · exact Or.inr (h1.trans h3)

theorem goodPiece_default : goodPiece default := by
  constructor <;> · intro h; cases h

theorem bumpEntry_piece (k : String) (p : Piece) (rot : Bool) :
    ∀ (m : List (String × SheetEntry)), ∀ kv ∈ bumpEntry k p rot m,
      kv.2.piece = p ∨ ∃ kv0 ∈ m, kv.2.piece = kv0.2.piece := by
  intro m
  induction m with
  | nil =>
    intro kv hkv
    rw [bumpEntry, List.mem_singleton] at hkv
    subst hkv
    exact Or.inl rfl
  | cons kv0 rest ih =>
    intro kv hkv
    obtain ⟨k2, e⟩ := kv0
    rw [bumpEntry] at hkv
    by_cases hk : k2 = k
    · rw [if_pos hk] at hkv
      rcases List.mem_cons.mp hkv with h | h
      · subst h
        exact Or.inr ⟨(k2, e), List.mem_cons_self _ _, rfl⟩
      · exact Or.inr ⟨kv, List.mem_cons_of_mem _ h, rfl⟩
    · rw [if_neg hk] at hkv
      rcases List.mem_cons.mp hkv with h | h
      · subst h
        exact Or.inr ⟨(k2, e), List.mem_cons_self _ _, rfl⟩
      · rcases ih kv h with h1 | ⟨kv1, hkv1, h1⟩
        · exact Or.inl h1
        · exact Or.inr ⟨kv1, List.mem_cons_of_mem _ hkv1, h1⟩

theorem aggFold_piece :
    ∀ (placed : List PlacedEntry) (m : List (String × SheetEntry)),
      ∀ kv ∈ placed.foldl
        (fun m pl => bumpEntry (aggKey pl.piece pl.rotated) pl.piece pl.rotated m) m,
        (∃ pl ∈ placed, kv.2.piece = pl.piece) ∨ ∃ kv0 ∈ m, kv.2.piece = kv0.2.piece := by
  intro placed
  induction placed with
  | nil =>
    intro m kv hkv
    exact Or.inr ⟨kv, hkv, rfl⟩
  | cons pl rest ih =>
    intro m kv hkv
    simp only [List.foldl_cons] at hkv
    rcases ih _ kv hkv with ⟨pl2, hpl2, h⟩ | ⟨kv0, hkv0, h⟩
    · exact Or.inl ⟨pl2, List.mem_cons_of_mem _ hpl2, h⟩
    · rcases bumpEntry_piece _ _ _ m kv0 hkv0 with h1 | ⟨kv1, hkv1, h1⟩
      · exact Or.inl ⟨pl, List.mem_cons_self _ _, h.trans h1⟩
      · exact Or.inr ⟨kv1, hkv1, h.trans h1⟩

theorem mkSheet_piece (cfg : Config) (placed : List PlacedEntry) :
    ∀ e ∈ (mkSheet cfg placed).pieces, ∃ pl ∈ placed, e.piece = pl.piece := by
  intro e he
  have he2 : e ∈ (placed.foldl
      (fun m pl => bumpEntry (aggKey pl.piece pl.rotated) pl.piece pl.rotated m) []).map
        Prod.snd := he
  rcases List.mem_map.mp he2 with ⟨kv, hkv, hkv2⟩
  rcases aggFold_piece placed [] kv hkv with ⟨pl, hpl, h⟩ | ⟨kv0, hkv0, -⟩
  · exact ⟨pl, hpl, hkv2 ▸ h⟩
  · cases hkv0

theorem contains_iff_mem (l : List String) (k : String) :
    l.contains k = true ↔ k ∈ l := List.elem_iff

theorem addDim_eq_of_mem {dims : List String} {k : String} (h : k ∈ dims) :
    addDim dims k = dims := by
  unfold addDim
  rw [if_pos ((contains_iff_mem dims k).mpr h)]

theorem addDim_eq_of_not_mem {dims : List String} {k : String} (h : k ∉ dims) :
    addDim dims k = dims ++ [k] := by
  unfold addDim
  rw [if_neg (fun hc => h ((contains_iff_mem dims k).mp hc))]

theorem mem_addDim_self (dims : List String) (k : String) : k ∈ addDim dims k := by
  unfold addDim
  split
  · rename_i h
    exact (contains_iff_mem _ _).mp h
  · exact List.mem_append.mpr (Or.inr (List.mem_singleton.mpr rfl))

theorem mem_addDim_of_mem {dims : List String} {k2 : String} (k : String) (h : k2 ∈ dims) :
    k2 ∈ addDim dims k := by
  unfold addDim
  split
  · exact h
  · exact List.mem_append.mpr (Or.inl h)

/-- A key match between two separator-free pieces yields equivalence of
their label pairs. -/
theorem key_cover_equiv {p r : Piece} (hp : goodPiece p) (hr : goodPiece r)
    (h : key1 p = key1 r ∨ key1 p = key2 r ∨ key2 p = key1 r ∨ key2 p = key2 r) :
    labPairEquiv (labPair p) (labPair r) = true := by
  unfold labPairEquiv labPair
  rw [Bool.or_eq_true, decide_eq_true_eq, decide_eq_true_eq]
  simp only [Prod.mk.injEq]
  rcases h with h | h | h | h
  · obtain ⟨h1, h2⟩ := key_inj hp.1 hr.1 h
    exact Or.inl ⟨h1, h2⟩
  · obtain ⟨h1, h2⟩ := key_inj hp.1 hr.2 h
    exact Or.inr ⟨h1, h2⟩
  · obtain ⟨h1, h2⟩ := key_inj hp.2 hr.1 h
    exact Or.inr ⟨h2, h1⟩
  · obtain ⟨h1, h2⟩ := key_inj hp.2 hr.2 h
    exact Or.inl ⟨h2, h1⟩

/-- Conservative-mode fill: the items stay separator-free and the placed
pieces' label pairs are covered by at most six representatives. -/
theorem fillLoop_conservative_cover (fuel j : ℕ) (st : FillSt)
    (hG : ∀ x ∈ st.items, goodPiece x)
    (hreps : ∃ reps : List Piece,
      (∀ r ∈ reps, goodPiece r) ∧ reps.length ≤ 6 ∧
      reps.length ≤ st.distinctDims.length ∧
      (∀ k ∈ st.distinctDims, ∃ r ∈ reps, k = key1 r ∨ k = key2 r))
    (hP : ∀ pl ∈ st.placed, goodPiece pl.piece ∧
      (key1 pl.piece ∈ st.distinctDims ∨ key2 pl.piece ∈ st.distinctDims)) :
    (∀ x ∈ (fillLoop true fuel j st).items, goodPiece x) ∧
    (∃ reps : List Piece,
      (∀ r ∈ reps, goodPiece r) ∧ reps.length ≤ 6 ∧
      (∀ pl ∈ (fillLoop true fuel j st).placed,
        ∃ r ∈ reps, labPairEquiv (labPair pl.piece) (labPair r) = true)) := by
  obtain ⟨j2, h⟩ := fillLoop_invariant true
    (fun _ s =>
      (∀ x ∈ s.items, goodPiece x) ∧
      (∃ reps : List Piece,
        (∀ r ∈ reps, goodPiece r) ∧ reps.length ≤ 6 ∧
        reps.length ≤ s.distinctDims.length ∧
        (∀ k ∈ s.distinctDims, ∃ r ∈ reps, k = key1 r ∨ k = key2 r)) ∧
      (∀ pl ∈ s.placed, goodPiece pl.piece ∧
        (key1 pl.piece ∈ s.distinctDims ∨ key2 pl.piece ∈ s.distinctDims)))
    (by intro s j2 hj hg hInv; exact hInv)
    (by
      intro s j2 node bin2 hj hg heq hInv
      obtain ⟨hG2, ⟨reps, hrG, hr6, hrlen, hrcov⟩, hP2⟩ := hInv
      have hq : goodPiece (s.items.getD j2 default) := by
        rcases getD_mem_or s.items j2 with h1 | h1
        · exact hG2 _ h1
        · rw [h1]
          exact goodPiece_default
      refine ⟨?_, ?_, ?_⟩
      · dsimp only
        intro x hx
        rcases mem_swapConsume s.items j2 s.idx x hx with h1 | h1
        · exact hG2 x h1
        · rw [h1]
          exact goodPiece_default
      · dsimp only
        by_cases hk1 : key1 (s.items.getD j2 default) ∈ s.distinctDims
        · rw [addDim_eq_of_mem hk1]
          exact ⟨reps, hrG, hr6, hrlen, hrcov⟩
        · rw [addDim_eq_of_not_mem hk1]
          by_cases hlen6 : 6 ≤ s.distinctDims.length
          · -- the guard was false, so the swapped key is already present
            have hk2 : key2 (s.items.getD j2 default) ∈ s.distinctDims := by
              by_contra hk2
              have hc1 : s.distinctDims.contains
                  (key1 (s.items.getD j2 default)) = false := by
                rw [← Bool.not_eq_true]
                exact fun hc => hk1 ((contains_iff_mem _ _).mp hc)
              have hc2 : s.distinctDims.contains
                  (key2 (s.items.getD j2 default)) = false := by
                rw [← Bool.not_eq_true]
                exact fun hc => hk2 ((contains_iff_mem _ _).mp hc)
              have hgt : consGuard true s j2 = true := by
                unfold consGuard hasDim
                rw [hc1, hc2, decide_eq_true hlen6]
                rfl
              rw [hgt] at hg
              cases hg
            obtain ⟨r, hrmem, hcase⟩ := hrcov _ hk2
            refine ⟨reps, hrG, hr6, ?_, ?_⟩
            · rw [List.length_append]
              omega
            · intro k hk
              rcases List.mem_append.mp hk with hkold | hknew
              · exact hrcov k hkold
              · rw [List.mem_singleton] at hknew
                subst hknew
                refine ⟨r, hrmem, ?_⟩
                rcases hcase with e | e
                · obtain ⟨c1, c2⟩ := key_inj hq.2 (hrG r hrmem).1 e
                  right
                  simp only [key1, key2]
                  rw [c1, c2]
                · obtain ⟨c1, c2⟩ := key_inj hq.2 (hrG r hrmem).2 e
                  left
                  simp only [key1, key2]
                  rw [c1, c2]
          · -- fewer than six keys: the new piece becomes a representative
            refine ⟨reps ++ [s.items.getD j2 default], ?_, ?_, ?_, ?_⟩
            · intro r hr
              rcases List.mem_append.mp hr with h1 | h1
              · exact hrG r h1
              · rw [List.mem_singleton] at h1
                subst h1
                exact hq
            · rw [List.length_append]
              simp only [List.length_cons, List.length_nil]
              omega
            · rw [List.length_append, List.length_append]
              simp only [List.length_cons, List.length_nil]
              omega
            · intro k hk
              rcases List.mem_append.mp hk with hkold | hknew
              · obtain ⟨r, hrmem, hc⟩ := hrcov k hkold
                exact ⟨r, List.mem_append.mpr (Or.inl hrmem), hc⟩
              · rw [List.mem_singleton] at hknew
                subst hknew
                exact ⟨s.items.getD j2 default,
                  List.mem_append.mpr (Or.inr (List.mem_singleton.mpr rfl)),
                  Or.inl rfl⟩
      · dsimp only
        intro pl hpl
        rcases List.mem_append.mp hpl with h1 | h1
        · obtain ⟨hgood, hkey⟩ := hP2 pl h1
          refine ⟨hgood, ?_⟩
          rcases hkey with h2 | h2
          · exact Or.inl (mem_addDim_of_mem _ h2)
          · exact Or.inr (mem_addDim_of_mem _ h2)
        · rw [List.mem_singleton] at h1
          subst h1
          exact ⟨hq, Or.inl (mem_addDim_self _ _)⟩)
    (by
      intro s j2 bin2 hj hg heq hInv
      exact hInv)
    fuel j st ⟨hG, hreps, hP⟩
  obtain ⟨hGf, ⟨reps, hrG, hr6, hrlen, hrcov⟩, hPf⟩ := h
  refine ⟨hGf, reps, hrG, hr6, ?_⟩
  intro pl hpl
  obtain ⟨hgood, hkey⟩ := hPf pl hpl
  rcases hkey with h2 | h2
  · obtain ⟨r, hrmem, hc⟩ := hrcov _ h2
    refine ⟨r, hrmem, key_cover_equiv hgood (hrG r hrmem) ?_⟩
    rcases hc with e | e
    · exact Or.inl e
    · exact Or.inr (Or.inl e)
  · obtain ⟨r, hrmem, hc⟩ := hrcov _ h2
    refine ⟨r, hrmem, key_cover_equiv hgood (hrG r hrmem) ?_⟩
    rcases hc with e | e
    · exact Or.inr (Or.inr (Or.inl e))
    · exact Or.inr (Or.inr (Or.inr e))

/-- The conservative sheet loop keeps every produced sheet within six
distinct label pairs. -/
theorem packLoop_conservative_cap (cfg : Config) :
    ∀ (fuel : ℕ) (items : List Piece) (idx : ℕ) (sheets : List Sheet)
      (warnings : List String) (visuals : List (List Visual)),
      (∀ x ∈ items, goodPiece x) →
      (∀ sheet ∈ sheets,
        countClassesBy labPairEquiv (sheet.pieces.map (fun e => labPair e.piece)) ≤ 6) →
      ∀ sheet ∈ (packLoop cfg true fuel items idx sheets warnings visuals).sheets,
        countClassesBy labPairEquiv (sheet.pieces.map (fun e => labPair e.piece)) ≤ 6 := by
  intro fuel
  induction fuel with
  | zero =>
    intro items idx sheets w v hG hacc sheet hs
    exact hacc sheet hs
  | succ n ih =>
    intro items idx sheets w v hG hacc sheet hs
    simp only [packLoop] at hs
    by_cases hidx : idx < items.length
    · rw [if_pos hidx] at hs
      have hcover := fillLoop_conservative_cover (items.length - idx) idx
        ⟨items, idx, MaxRectsBin.init cfg.sheetWidth cfg.sheetHeight cfg.kerf, [], []⟩
        (by intro x hx; exact hG x hx)
        (by
          refine ⟨[], ?_, ?_, ?_, ?_⟩
          · intro r hr
            cases hr
          · simp
          · simp
          · intro k hk
            cases hk)
        (by intro pl hpl; cases hpl)
      obtain ⟨hGf, reps, hrG, hr6, hcov⟩ := hcover
      have hnew : countClassesBy labPairEquiv
          (((mkSheet cfg (fillLoop true (items.length - idx) idx
            ⟨items, idx, MaxRectsBin.init cfg.sheetWidth cfg.sheetHeight cfg.kerf,
              [], []⟩).placed).pieces).map (fun e => labPair e.piece)) ≤ 6 := by
        have hcovlist : ∀ x ∈ ((mkSheet cfg (fillLoop true (items.length - idx) idx
            ⟨items, idx, MaxRectsBin.init cfg.sheetWidth cfg.sheetHeight cfg.kerf,
              [], []⟩).placed).pieces).map (fun e => labPair e.piece),
            ∃ r2 ∈ reps.map labPair, labPairEquiv x r2 = true := by
          intro x hx
          rcases List.mem_map.mp hx with ⟨e, he, rfl⟩
          obtain ⟨pl, hpl, hpe⟩ := mkSheet_piece cfg _ e he
          obtain ⟨r, hrmem, hequiv⟩ := hcov pl hpl
          refine ⟨labPair r, List.mem_map_of_mem _ hrmem, ?_⟩
          rw [hpe]
          exact hequiv
        have hbound := countClassesByAux_le labPairEquiv
          (fun a b h => labPairEquiv_symm h)
          (fun a b c h1 h2 => labPairEquiv_trans h1 h2)
          (reps.map labPair) _ [] hcovlist
        calc countClassesBy labPairEquiv _ ≤ _ := hbound
          _ ≤ (reps.map labPair).length := List.countP_le_length _
          _ = reps.length := List.length_map _ _
          _ ≤ 6 := hr6
      by_cases hz : (fillLoop true (items.length - idx) idx
          ⟨items, idx, MaxRectsBin.init cfg.sheetWidth cfg.sheetHeight cfg.kerf,
            [], []⟩).placed.length = 0
      · rw [if_pos hz] at hs
        exact hacc sheet hs
      · rw [if_neg hz] at hs
        by_cases hgt : (sheets ++ [mkSheet cfg (fillLoop true (items.length - idx) idx
            ⟨items, idx, MaxRectsBin.init cfg.sheetWidth cfg.sheetHeight cfg.kerf,
              [], []⟩).placed]).length > 200
        · rw [if_pos hgt] at hs
          rcases List.mem_append.mp hs with h | h
          · exact hacc sheet h
          · rw [List.mem_singleton] at h
            subst h
            exact hnew
        · rw [if_neg hgt] at hs
          refine ih _ _ _ _ _ ?_ ?_ sheet hs
          · exact hGf
          · intro sheet2 hs2
            rcases List.mem_append.mp hs2 with h | h
            · exact hacc sheet2 h
            · rw [List.mem_singleton] at h
              subst h
              exact hnew
    · rw [if_neg hidx] at hs
      exact hacc sheet hs

/-- C6 (amended): with conservativeMode on, every sheet of the general
pass holds at most 6 distinct unordered label pairs, provided the input
labels are free of the `×` separator. The amendment replaces numeric
dimension pairs by display-label pairs: the limiter keys are built from
the `originalWidth`/`originalHeight` strings, so distinct numeric
dimensions sharing labels are not limited (see the counterexample) while
label pairs are. -/
theorem claim6_amended_conservative_cap (pieces : List Piece)
    (hgood : ∀ p ∈ pieces, goodPiece p) :
    ∀ sheet ∈ (Script.packSheetsGuillotine pieces true).sheets,
      countClassesBy labPairEquiv (sheet.pieces.map (fun e => labPair e.piece)) ≤ 6 := by
  intro sheet hs
  refine packLoop_conservative_cap config _ _ _ _ _ _ ?_ ?_ sheet hs
  · intro x hx
    rcases mem_sortPieces (explode pieces) [] x hx with h | h
    · cases h
    · exact hgood x (mem_explode pieces x h)
  · intro sheet2 hs2
    cases hs2

set_option maxRecDepth 4000000 in
/-- Witness for C6: a single 10×20 piece packed conservatively yields
one sheet with one label pair, and the amended cap applies to it. -/
theorem claim6_witness :
    (∀ p ∈ ([⟨"10", "20", 10, 20, 1, 0⟩] : List Piece), goodPiece p) ∧
    (⟨[⟨⟨"10", "20", 10, 20, 1, 0⟩, true, 1⟩], 2, 0⟩ : Sheet) ∈
      (Script.packSheetsGuillotine [⟨"10", "20", 10, 20, 1, 0⟩] true).sheets ∧
    countClassesBy labPairEquiv
      ((⟨[⟨⟨"10", "20", 10, 20, 1, 0⟩, true, 1⟩], 2, 0⟩ : Sheet).pieces.map
        (fun e => labPair e.piece)) ≤ 6 :=
  ⟨by decide, by with_unfolding_all decide,
   claim6_amended_conservative_cap [⟨"10", "20", 10, 20, 1, 0⟩] (by decide) _
     (by with_unfolding_all decide)⟩

/-! ## C8: termination, consumption and the 200-sheet cap (amended) -/

theorem insertSorted_length (x : Piece) :
    ∀ (l : List Piece), (insertSorted x l).length = l.length + 1 := by
  intro l
  induction l with
  | nil => rfl
  | cons y ys ih =>
    rw [insertSorted]
    split
    · simp
    · simp only [List.length_cons, ih]

theorem sortPiecesAux_length : ∀ (l acc : List Piece),
    (l.foldl (fun acc x => insertSorted x acc) acc).length = acc.length + l.length := by
  intro l
  induction l with
  | nil => intro acc; simp
  | cons x xs ih =>
    intro acc
    simp only [List.foldl_cons]
    rw [ih, insertSorted_length]
    simp only [List.length_cons]
    omega

theorem sortPieces_length (l : List Piece) : (sortPieces l).length = l.length := by
  unfold sortPieces
  rw [sortPiecesAux_length]
  simp

theorem stripInsert_length (x : Piece) :
    ∀ (l : List Piece), (Part001.stripInsert x l).length = l.length + 1 := by
  intro l
  induction l with
  | nil => rfl
  | cons y ys ih =>
    rw [Part001.stripInsert]
    split
    · simp
    · simp only [List.length_cons, ih]

theorem sortStripAux_length : ∀ (l acc : List Piece),
    (l.foldl (fun acc x => Part001.stripInsert x acc) acc).length
      = acc.length + l.length := by
  intro l
  induction l with
  | nil => intro acc; simp
  | cons x xs ih =>
    intro acc
    simp only [List.foldl_cons]
    rw [ih, stripInsert_length]
    simp only [List.length_cons]
    omega

theorem sortStrip_length (l : List Piece) : (Part001.sortStrip l).length = l.length := by
  unfold Part001.sortStrip
  rw [sortStripAux_length]
  simp

/-- Every continuing sheet iteration of the general loop consumes at
least one item, so the sheet count is bounded by the remaining items. -/
theorem packLoop_sheets_consume (cfg : Config) (cons : Bool) :
    ∀ (fuel : ℕ) (items : List Piece) (idx : ℕ) (sheets : List Sheet)
      (w : List String) (v : List (List Visual)),
      (packLoop cfg cons fuel items idx sheets w v).sheets.length ≤
        sheets.length + (items.length - idx) := by
  intro fuel
  induction fuel with
  | zero =>
    intro items idx sheets w v
    exact Nat.le_add_right _ _
  | succ n ih =>
    intro items idx sheets w v
    simp only [packLoop]
    by_cases hidx : idx < items.length
    · rw [if_pos hidx]
      by_cases hz : (fillLoop cons (items.length - idx) idx
          ⟨items, idx, MaxRectsBin.init cfg.sheetWidth cfg.sheetHeight cfg.kerf,
            [], []⟩).placed.length = 0
      · rw [if_pos hz]
        exact Nat.le_add_right _ _
      · rw [if_neg hz]
        have hadv : (fillLoop cons (items.length - idx) idx
            ⟨items, idx, MaxRectsBin.init cfg.sheetWidth cfg.sheetHeight cfg.kerf,
              [], []⟩).idx = idx + (fillLoop cons (items.length - idx) idx
            ⟨items, idx, MaxRectsBin.init cfg.sheetWidth cfg.sheetHeight cfg.kerf,
              [], []⟩).placed.length := by
          have h1 := fillLoop_idx_placed cons (items.length - idx) idx
            ⟨items, idx, MaxRectsBin.init cfg.sheetWidth cfg.sheetHeight cfg.kerf, [], []⟩
          simpa using h1
        have hlen : (fillLoop cons (items.length - idx) idx
            ⟨items, idx, MaxRectsBin.init cfg.sheetWidth cfg.sheetHeight cfg.kerf,
              [], []⟩).items.length = items.length := by
          have h1 := fillLoop_items_length cons (items.length - idx) idx
            ⟨items, idx, MaxRectsBin.init cfg.sheetWidth cfg.sheetHeight cfg.kerf, [], []⟩
          simpa using h1
        by_cases hgt : (sheets ++ [mkSheet cfg (fillLoop cons (items.length - idx) idx
            ⟨items, idx, MaxRectsBin.init cfg.sheetWidth cfg.sheetHeight cfg.kerf,
              [], []⟩).placed]).length > 200
        · rw [if_pos hgt]
          dsimp only
          rw [List.length_append]
          simp only [List.length_cons, List.length_nil]
          omega
        · rw [if_neg hgt]
          have hrec := ih (fillLoop cons (items.length - idx) idx
              ⟨items, idx, MaxRectsBin.init cfg.sheetWidth cfg.sheetHeight cfg.kerf,
                [], []⟩).items
            (fillLoop cons (items.length - idx) idx
              ⟨items, idx, MaxRectsBin.init cfg.sheetWidth cfg.sheetHeight cfg.kerf,
                [], []⟩).idx
            (sheets ++ [mkSheet cfg (fillLoop cons (items.length - idx) idx
              ⟨items, idx, MaxRectsBin.init cfg.sheetWidth cfg.sheetHeight cfg.kerf,
                [], []⟩).placed]) w
            (v ++ [(fillLoop cons (items.length - idx) idx
              ⟨items, idx, MaxRectsBin.init cfg.sheetWidth cfg.sheetHeight cfg.kerf,
                [], []⟩).placed.map visualOf])
          rw [List.length_append, hlen] at hrec
          simp only [List.length_cons, List.length_nil] at hrec
          refine le_trans hrec ?_
          omega
    · rw [if_neg hidx]
      exact Nat.le_add_right _ _

/-- Once the general loop holds at most 200 sheets, it never exceeds
201, and exceeding 200 comes with the abort warning. -/
theorem packLoop_cap (cfg : Config) (cons : Bool) :
    ∀ (fuel : ℕ) (items : List Piece) (idx : ℕ) (sheets : List Sheet)
      (w : List String) (v : List (List Visual)),
      sheets.length ≤ 200 →
      (packLoop cfg cons fuel items idx sheets w v).sheets.length ≤ 201 ∧
      (200 < (packLoop cfg cons fuel items idx sheets w v).sheets.length →
        abortWarning ∈ (packLoop cfg cons fuel items idx sheets w v).warnings) := by
  intro fuel
  induction fuel with
  | zero =>
    intro items idx sheets w v h200
    have he : (packLoop cfg cons 0 items idx sheets w v).sheets.length
        = sheets.length := rfl
    constructor
    · omega
    · intro hgt
      omega
  | succ n ih =>
    intro items idx sheets w v h200
    simp only [packLoop]
    by_cases hidx : idx < items.length
    · rw [if_pos hidx]
      by_cases hz : (fillLoop cons (items.length - idx) idx
          ⟨items, idx, MaxRectsBin.init cfg.sheetWidth cfg.sheetHeight cfg.kerf,
            [], []⟩).placed.length = 0
      · rw [if_pos hz]
        dsimp only
        constructor
        · omega
        · intro hgt
          omega
      · rw [if_neg hz]
        by_cases hgt : (sheets ++ [mkSheet cfg (fillLoop cons (items.length - idx) idx
            ⟨items, idx, MaxRectsBin.init cfg.sheetWidth cfg.sheetHeight cfg.kerf,
              [], []⟩).placed]).length > 200
        · rw [if_pos hgt]
          dsimp only
          rw [List.length_append] at *
          simp only [List.length_cons, List.length_nil] at *
          constructor
          · omega
          · intro hgt2
            exact List.mem_append.mpr (Or.inr (List.mem_singleton.mpr rfl))
        · rw [if_neg hgt]
          refine ih _ _ _ _ _ ?_
          rw [List.length_append] at hgt ⊢
          simp only [List.length_cons, List.length_nil] at hgt ⊢
          omega
    · rw [if_neg hidx]
      dsimp only
      constructor
      · omega
      · intro hgt
        omega

theorem totalParts_replicate_zero (n : ℕ) :
    Part001.totalParts (List.replicate n ⟨0, []⟩) = 0 := Part001.totalParts_replicate n

/-- Every continuing strip sheet consumes at least one part, so the
strip sheet count is bounded by the remaining items; the item array
keeps its length. -/
theorem stripLoop_sheets (cfg : Config) (cw : ℚ) (cols : ℕ) :
    ∀ (fuel : ℕ) (items : List Piece) (i : ℕ) (sheets : List Sheet)
      (visuals : List (List Visual)),
      (Part001.stripLoop cfg cw cols fuel items i sheets visuals).1.length ≤
        sheets.length + (items.length - i) ∧
      (Part001.stripLoop cfg cw cols fuel items i sheets visuals).2.2.2.length
        = items.length := by
  intro fuel
  induction fuel with
  | zero =>
    intro items i sheets visuals
    exact ⟨Nat.le_add_right _ _, rfl⟩
  | succ n ih =>
    intro items i sheets visuals
    simp only [Part001.stripLoop]
    by_cases hi : i < items.length
    · rw [if_pos hi]
      by_cases hz : Part001.totalParts (Part001.stripFill cfg cw (items.length - i) i
          ⟨items, i, List.replicate cols ⟨0, []⟩⟩).columns = 0
      · rw [if_pos hz]
        exact ⟨Nat.le_add_right _ _, rfl⟩
      · rw [if_neg hz]
        have hadv : (Part001.stripFill cfg cw (items.length - i) i
            ⟨items, i, List.replicate cols ⟨0, []⟩⟩).i
            = i + Part001.totalParts (Part001.stripFill cfg cw (items.length - i) i
              ⟨items, i, List.replicate cols ⟨0, []⟩⟩).columns := by
          have h1 := Part001.stripFill_i_parts cfg cw (items.length - i) i
            ⟨items, i, List.replicate cols ⟨0, []⟩⟩
          rw [totalParts_replicate_zero] at h1
          simpa using h1
        have hlen : (Part001.stripFill cfg cw (items.length - i) i
            ⟨items, i, List.replicate cols ⟨0, []⟩⟩).items.length = items.length := by
          have h1 := Part001.stripFill_items_length cfg cw (items.length - i) i
            ⟨items, i, List.replicate cols ⟨0, []⟩⟩
          simpa using h1
        obtain ⟨ihb, ihl⟩ := ih (Part001.stripFill cfg cw (items.length - i) i
            ⟨items, i, List.replicate cols ⟨0, []⟩⟩).items
          (Part001.stripFill cfg cw (items.length - i) i
            ⟨items, i, List.replicate cols ⟨0, []⟩⟩).i
          (sheets ++ [(Part001.stripSheet cfg cw (Part001.stripFill cfg cw
            (items.length - i) i ⟨items, i, List.replicate cols ⟨0, []⟩⟩).columns).1])
          (visuals ++ [(Part001.stripSheet cfg cw (Part001.stripFill cfg cw
            (items.length - i) i ⟨items, i, List.replicate cols ⟨0, []⟩⟩).columns).2])
        constructor
        · refine le_trans ihb ?_
          rw [List.length_append, hlen]
          simp only [List.length_cons, List.length_nil]
          omega
        · rw [ihl, hlen]
    · rw [if_neg hi]
      exact ⟨Nat.le_add_right _ _, rfl⟩

theorem stripItems_le_explode (c tol : ℚ) (pieces : List Piece) :
    (pieces.flatMap fun p =>
      if decide (|p.width - c| ≤ tol) then List.replicate p.qty p else []).length ≤
      (explode pieces).length := by
  induction pieces with
  | nil => simp [explode]
  | cons p rest ih =>
    rw [List.flatMap_cons, explode_cons, List.length_append, List.length_append]
    refine Nat.add_le_add ?_ ih
    split
    · exact le_rfl
    · simp

/-- The strip pass returns at most one sheet per exploded strip item and
a remaining list bounded by the input sizes. -/
theorem packSheetsStripMode_some_bounds (pieces : List Piece) (cons : Bool)
    (sr : Part001.StripResult)
    (h : Part001.packSheetsStripMode config pieces cons = some sr) :
    sr.sheets.length ≤ (explode pieces).length ∧
    sr.remaining.length ≤ (explode pieces).length + pieces.length := by
  unfold Part001.packSheetsStripMode at h
  dsimp only at h
  split at h
  · cases h
  · rename_i c heq
    split at h
    · cases h
    · split at h
      · cases h
      · rw [Option.some.injEq] at h
        subst h
        set SI := pieces.flatMap (fun p =>
          if decide (|p.width - c| ≤ config.stripWidthTolerance + 1/1000000) then
            List.replicate p.qty p else []) with hSIdef
        set r := Part001.stripLoop config c
          (Part001.shrinkCols config c
            (max 1 ⌊(config.sheetWidth + config.kerf) / (c + config.kerf)⌋).toNat)
          (Part001.sortStrip SI).length (Part001.sortStrip SI) 0 [] [] with hrdef
        have hSI : SI.length ≤ (explode pieces).length :=
          stripItems_le_explode c (config.stripWidthTolerance + 1/1000000) pieces
        have hsl : (Part001.sortStrip SI).length = SI.length := sortStrip_length SI
        obtain ⟨hb, hl⟩ := stripLoop_sheets config c
          (Part001.shrinkCols config c
            (max 1 ⌊(config.sheetWidth + config.kerf) / (c + config.kerf)⌋).toNat)
          (Part001.sortStrip SI).length (Part001.sortStrip SI) 0 [] []
        rw [← hrdef] at hb hl
        constructor
        · dsimp only
          simp only [List.length_nil, Nat.zero_add, Nat.sub_zero] at hb
          omega
        · dsimp only
          rw [List.length_append, List.length_drop]
          have hfil := List.length_filter_le
            (fun p => !decide (|p.width - c| ≤ config.stripWidthTolerance + 1/1000000)) pieces
          omega

/-- C8 (amended): both packers terminate with a result on every finite
input. The general pass produces at most one sheet per exploded item,
caps at 201 sheets, and exceeding 200 sheets comes with the abort
warning. The composite part_001 packer also produces a bounded number
of sheets, but its strip pass is exempt from the 200-sheet abort: the
original claim's unconditional abort clause is refuted by the
counterexample, where the strip pass alone emits 201 sheets and no
warning. -/
theorem claim8_amended_termination_bounds (pieces : List Piece) (cons : Bool) :
    ((Script.packSheetsGuillotine pieces cons).sheets.length ≤ (explode pieces).length ∧
     (Script.packSheetsGuillotine pieces cons).sheets.length ≤ 201 ∧
     (200 < (Script.packSheetsGuillotine pieces cons).sheets.length →
       abortWarning ∈ (Script.packSheetsGuillotine pieces cons).warnings)) ∧
    (Part001.packSheetsGuillotine pieces cons).sheets.length ≤
      2 * (explode pieces).length + pieces.length := by
  constructor
  · have hcons := packLoop_sheets_consume config cons (sortPieces (explode pieces)).length
      (sortPieces (explode pieces)) 0 [] [] []
    have hcap := packLoop_cap config cons (sortPieces (explode pieces)).length
      (sortPieces (explode pieces)) 0 [] [] [] (by simp)
    have hlen := sortPieces_length (explode pieces)
    refine ⟨?_, hcap.1, hcap.2⟩
    calc (Script.packSheetsGuillotine pieces cons).sheets.length
        ≤ ([] : List Sheet).length + ((sortPieces (explode pieces)).length - 0) := hcons
      _ ≤ (explode pieces).length := by
          rw [hlen]
          simp
  · unfold Part001.packSheetsGuillotine
    dsimp only
    split
    · rename_i sr hsr
      obtain ⟨hb1, hb2⟩ := packSheetsStripMode_some_bounds pieces cons sr hsr
      split
      · have hcons := packLoop_sheets_consume config cons (sortPieces sr.remaining).length
          (sortPieces sr.remaining) 0 sr.sheets [] sr.visuals
        have hlen := sortPieces_length sr.remaining
        calc (packLoop config cons (sortPieces sr.remaining).length
              (sortPieces sr.remaining) 0 sr.sheets [] sr.visuals).sheets.length
            ≤ sr.sheets.length + ((sortPieces sr.remaining).length - 0) := hcons
          _ ≤ 2 * (explode pieces).length + pieces.length := by
              rw [hlen]
              omega
      · dsimp only
        omega
    · split
      · have hcons := packLoop_sheets_consume config cons (sortPieces (explode pieces)).length
          (sortPieces (explode pieces)) 0 [] [] []
        have hlen := sortPieces_length (explode pieces)
        calc (packLoop config cons (sortPieces (explode pieces)).length
              (sortPieces (explode pieces)) 0 [] [] []).sheets.length
            ≤ ([] : List Sheet).length + ((sortPieces (explode pieces)).length - 0) := hcons
          _ ≤ 2 * (explode pieces).length + pieces.length := by
              rw [hlen]
              simp only [List.length_nil, Nat.zero_add, Nat.sub_zero]
              omega
      · dsimp only
        exact Nat.zero_le _

/-! ## C8 counterexample: 201 strip sheets and no abort warning -/

theorem swapConsume_all_eq {l : List Piece} {P : Piece} (hall : ∀ x ∈ l, x = P)
    {j i : ℕ} (hj : j < l.length) (hi : i < l.length) :
    ∀ x ∈ swapConsume l j i, x = P := by
  intro x hx
  unfold swapConsume at hx
  have ha : l.getD i default = P := hall _ (by
    rw [List.getD_eq_getElem?_getD, List.getElem?_eq_getElem hi]
    exact List.getElem_mem hi)
  have hb : l.getD j default = P := hall _ (by
    rw [List.getD_eq_getElem?_getD, List.getElem?_eq_getElem hj]
    exact List.getElem_mem hj)
  rcases List.mem_or_eq_of_mem_set hx with h1 | h1
  · rcases List.mem_or_eq_of_mem_set h1 with h2 | h2
    · exact hall x h2
    · exact h2.trans ha
  · exact h1.trans hb

/-- A 48-wide strip column filled to height 96 takes no further
full-sheet part. -/
theorem placeInColumns_full_col (parts : List Part001.StripPart) :
    Part001.placeInColumns config 48 capPiece [⟨96, parts⟩] = none := by
  rw [Part001.placeInColumns]
  rw [if_neg (by
    rw [decide_eq_true_eq]
    dsimp only [capPiece, config]
    rw [ite_self]
    norm_num)]
  rw [Part001.placeInColumns]

/-- Scanning full-sheet items over a filled column changes nothing. -/
theorem stripFill_full : ∀ (fuel j : ℕ) (st : Part001.StripFillSt)
    (parts : List Part001.StripPart),
    (∀ x ∈ st.items, x = capPiece) →
    st.columns = [⟨96, parts⟩] →
    Part001.stripFill config 48 fuel j st = st := by
  intro fuel
  induction fuel with
  | zero =>
    intro j st parts hall hcol
    rw [Part001.stripFill]
  | succ n ih =>
    intro j st parts hall hcol
    rw [Part001.stripFill]
    by_cases hj : j < st.items.length
    · rw [if_pos hj]
      have hitem : st.items.getD j default = capPiece := hall _ (by
        rw [List.getD_eq_getElem?_getD, List.getElem?_eq_getElem hj]
        exact List.getElem_mem hj)
      rw [hitem, hcol, placeInColumns_full_col]
      exact ih (j+1) st parts hall hcol
    · rw [if_neg hj]

/-- One strip sheet of full-sheet items places exactly one part. -/
theorem stripFill_one (n i : ℕ) (items : List Piece)
    (hall : ∀ x ∈ items, x = capPiece) (hi : i < items.length) :
    ∃ items2 : List Piece,
      Part001.stripFill config 48 (n+1) i ⟨items, i, [⟨0, []⟩]⟩
        = ⟨items2, i+1, [⟨96, [⟨capPiece, 0, 0, 48, 96⟩]⟩]⟩ ∧
      (∀ x ∈ items2, x = capPiece) ∧ items2.length = items.length := by
  have hitem : items.getD i default = capPiece := hall _ (by
    rw [List.getD_eq_getElem?_getD, List.getElem?_eq_getElem hi]
    exact List.getElem_mem hi)
  have hplc : Part001.placeInColumns config 48 capPiece [⟨0, []⟩]
      = some [⟨96, [⟨capPiece, 0, 0, 48, 96⟩]⟩] := by
    with_unfolding_all decide
  rw [Part001.stripFill]
  dsimp only
  rw [if_pos hi, hitem, hplc]
  dsimp only
  by_cases hlast : i + 1 ≥ (swapConsume items i i).length
  · rw [if_pos hlast]
    exact ⟨swapConsume items i i, rfl, swapConsume_all_eq hall hi hi,
      swapConsume_length items i i⟩
  · rw [if_neg hlast]
    have hfull := stripFill_full n (i+1)
      ⟨swapConsume items i i, i+1, [⟨96, [⟨capPiece, 0, 0, 48, 96⟩]⟩]⟩
      [⟨capPiece, 0, 0, 48, 96⟩]
      (fun x hx => swapConsume_all_eq hall hi hi x hx) rfl
    rw [hfull]
    exact ⟨swapConsume items i i, rfl, swapConsume_all_eq hall hi hi,
      swapConsume_length items i i⟩

/-- The one-column strip loop over full-sheet items emits one sheet per
item and consumes them all. -/
theorem stripLoop_all_cap :
    ∀ (fuel : ℕ) (items : List Piece) (i : ℕ) (sheets : List Sheet)
      (visuals : List (List Visual)),
      (∀ x ∈ items, x = capPiece) →
      i ≤ items.length →
      fuel = items.length - i →
      (Part001.stripLoop config 48 1 fuel items i sheets visuals).1.length
        = sheets.length + (items.length - i) ∧
      (Part001.stripLoop config 48 1 fuel items i sheets visuals).2.2.1
        = items.length ∧
      (Part001.stripLoop config 48 1 fuel items i sheets visuals).2.2.2.length
        = items.length := by
  intro fuel
  induction fuel with
  | zero =>
    intro items i sheets visuals hall hile hfuel
    rw [Part001.stripLoop]
    dsimp only
    refine ⟨by omega, by omega, rfl⟩
  | succ n ih =>
    intro items i sheets visuals hall hile hfuel
    rw [Part001.stripLoop]
    have hi : i < items.length := by omega
    rw [if_pos hi]
    have hf : items.length - i = n + 1 := by omega
    rw [hf, show (List.replicate 1 (⟨0, []⟩ : Part001.Column)) = [⟨0, []⟩] from rfl]
    obtain ⟨items2, heq, hall2, hlen2⟩ := stripFill_one n i items hall hi
    rw [heq]
    dsimp only
    rw [if_neg (by decide)]
    obtain ⟨ih1, ih2, ih3⟩ := ih items2 (i+1)
      (sheets ++ [(Part001.stripSheet config 48
        [⟨96, [⟨capPiece, 0, 0, 48, 96⟩]⟩]).1])
      (visuals ++ [(Part001.stripSheet config 48
        [⟨96, [⟨capPiece, 0, 0, 48, 96⟩]⟩]).2])
      hall2 (by omega) (by omega)
    refine ⟨?_, ?_, ?_⟩
    · rw [ih1, List.length_append]
      simp only [List.length_cons, List.length_nil]
      omega
    · rw [ih2, hlen2]
    · rw [ih3, hlen2]

set_option maxRecDepth 4000000 in
/-- The strip pass on 201 copies of the full-sheet piece returns 201
sheets and nothing remaining. -/
theorem strip_cap_run :
    ∃ sh vis, Part001.packSheetsStripMode config [capPiece] false
      = some ⟨sh, vis, []⟩ ∧ sh.length = 201 := by
  have hcw : (Part001.detectCommonWidth config [capPiece]).commonWidth = some 48 := by
    with_unfolding_all decide
  have hSI : ([capPiece].flatMap fun p =>
      if decide (|p.width - 48| ≤ config.stripWidthTolerance + 1/1000000) then
        List.replicate p.qty p else []) = List.replicate 201 capPiece := by
    with_unfolding_all decide
  have hOI : (List.filter
      (fun p => !decide (|p.width - 48| ≤ config.stripWidthTolerance + 1/1000000))
      [capPiece]) = [] := by
    with_unfolding_all decide
  have hcond : (!config.stripModeAuto ||
      decide ((List.replicate 201 capPiece).length = 0) ||
      decide ((Part001.detectCommonWidth config [capPiece]).ratio < 7/10)) = false := by
    with_unfolding_all decide
  have hcols : Part001.shrinkCols config 48
      (max 1 ⌊(config.sheetWidth + config.kerf) / (48 + config.kerf)⌋).toNat = 1 := by
    with_unfolding_all decide
  have hsort : Part001.sortStrip (List.replicate 201 capPiece)
      = List.replicate 201 capPiece := by
    with_unfolding_all decide
  simp only [Part001.packSheetsStripMode]
  rw [hcw]
  split
  · rename_i heq
    exact absurd heq (by simp)
  · rename_i c heq
    have hc : c = 48 := by
      injection heq with h
      exact h.symm
    subst hc
    rw [if_neg (by norm_num), hSI, hOI, hcond]
    rw [if_neg (by simp), hcols, hsort, List.length_replicate]
    obtain ⟨h1, h2, h3⟩ := stripLoop_all_cap 201 (List.replicate 201 capPiece) 0 [] []
      (fun x hx => List.eq_of_mem_replicate hx) (by simp) (by simp)
    have hrem : (Part001.stripLoop config 48 1 201
          (List.replicate 201 capPiece) 0 [] []).2.2.2.drop
        (Part001.stripLoop config 48 1 201
          (List.replicate 201 capPiece) 0 [] []).2.2.1 ++ ([] : List Piece) = [] := by
      rw [List.append_nil, h2]
      exact List.drop_eq_nil_of_le (by rw [h3])
    refine ⟨(Part001.stripLoop config 48 1 201
        (List.replicate 201 capPiece) 0 [] []).1,
      (Part001.stripLoop config 48 1 201
        (List.replicate 201 capPiece) 0 [] []).2.1, ?_, ?_⟩
    · rw [hrem]
    · rw [h1]
      simp

set_option maxRecDepth 4000000 in
/-- C8 counterexample: a single 48×96 piece of quantity 201 drives the
composite packer's strip pass to 201 sheets — past the 200-sheet cap —
yet the run returns no warnings: the abort clause does not cover the
strip pass. -/
theorem claim8_counterexample :
    (Part001.packSheetsGuillotine [capPiece] false).sheets.length = 201 ∧
    (Part001.packSheetsGuillotine [capPiece] false).warnings = [] := by
  obtain ⟨sh, vis, heq, hlen⟩ := strip_cap_run
  unfold Part001.packSheetsGuillotine
  rw [heq]
  dsimp only
  rw [if_neg (by simp)]
  exact ⟨hlen, rfl⟩

end WoodCutter
